import Mathlib

/-!
A verification development for the Bayes-net library `i3/bayesnet.py`.

The Python source is shallowly embedded: pure functions become Lean
functions; Python assertion failures, `KeyError`, `IndexError` and
`TypeError` become an explicit `Except Err` error monad; floats that are
only carried around (CPT probabilities) are modelled as real numbers,
and float values stored in assignments are modelled as rationals.

The collaborators `i3.dist`, `i3.random_world` and `i3.utils` are part of
the repository but not among the given sources; the few operations of
theirs that the embedded code uses are modelled from the specification
and carry a doc comment saying so.
-/

namespace I3

/-- Python exception kinds that the embedded code can raise. -/
inductive Err where
  | assertionError
  | keyError
  | indexError
  | typeError
  | cycleError
deriving DecidableEq, Repr

/-- A value stored in a random world: discrete node values are naturals,
continuous node values (Python floats) are modelled as rationals. -/
inductive Val where
  | vnat (n : Nat)
  | vreal (q : ℚ)
deriving DecidableEq, Repr

/-- Modelled from the spec: `random_world.RandomWorld` is not among the
sources.  An assignment ("world") is a mapping from node index to value;
we represent it as an association list whose lookup returns the first
binding of a key. -/
abbrev World := List (Nat × Val)

/-- Modelled from the spec: dictionary lookup `world.data[index]`. -/
def wLookup (w : World) (k : Nat) : Option Val :=
  (w.find? (fun p => p.1 == k)).map (·.2)

/-- Modelled from the spec: containment test `node in world`, keyed by
node index. -/
def wContains (w : World) (k : Nat) : Bool :=
  (w.find? (fun p => p.1 == k)).isSome

/-- Modelled from the spec: dictionary assignment
`world.data[index] = value` (replace an existing binding, otherwise
append a fresh one). -/
def wInsert (w : World) (k : Nat) (v : Val) : World :=
  if wContains w k then w.map (fun p => if p.1 == k then (k, v) else p)
  else w ++ [(k, v)]

/-- Modelled from the spec: `utils.LOG_PROB_0`, a fixed very-negative
constant standing for probability zero in log space. -/
def LOG_PROB_0 : ℝ := -(10 ^ 10)

/-- Modelled from the spec: `dist.CategoricalDistribution` is not among
the sources; it holds the support and the probability row it was
constructed with (the shared random generator it also receives is
threaded separately as an explicit state). -/
structure CategoricalDistribution where
  values : List Nat
  probabilities : List ℝ

/-- Modelled from the spec: drawing from a categorical distribution is a
deterministic function of the internal generator seed state; the drawn
value is an element of the support.  An empty support cannot be drawn
from. -/
def CategoricalDistribution.sample (d : CategoricalDistribution) (rng : Nat) :
    Except Err (Val × Nat) :=
  match d.values[rng % d.values.length]? with
  | some v => .ok (Val.vnat v, rng + 1)
  | none => .error Err.indexError

/-- Modelled from the spec: scoring a categorical distribution returns
the log of its mass at the queried value, and the zero-probability
sentinel for values outside the support. -/
noncomputable def CategoricalDistribution.log_probability
    (d : CategoricalDistribution) (v : Val) : ℝ :=
  match v with
  | Val.vnat n =>
    match d.probabilities[n]? with
    | some p => Real.log p
    | none => LOG_PROB_0
  | Val.vreal _ => LOG_PROB_0

/-! ## The mixed-radix CPT indexing scheme (`TableBayesNetNode`) -/

/-- The reversed accumulation loop of
`TableBayesNetNode.compute_parent_multipliers`: iterate domain sizes,
record the running product before multiplying it by the current size. -/
def cpmAux : List Nat → Nat → List Nat
  | [], _ => []
  | s :: rest, m => m :: cpmAux rest (m * s)

/-- `TableBayesNetNode.compute_parent_multipliers`, as a function of the
domain sizes of the (sorted) parents: iterate the parents in reverse
order accumulating multipliers, then reverse the result. -/
def compute_parent_multipliers (sizes : List Nat) : List Nat :=
  (cpmAux sizes.reverse 1).reverse

/-- The value computed by `TableBayesNetNode.distribution_index` once the
parent values have been fetched from the world: the sum of parent values
times the corresponding multipliers. -/
def distribution_index_core (vals mult : List Nat) : Nat :=
  (List.zipWith (· * ·) vals mult).sum

/-- `itertools.product` over a list of supports: the lexicographic
Cartesian product, rightmost position varying fastest. -/
def lexProduct : List (List Nat) → List (List Nat)
  | [] => [[]]
  | s :: rest => s.flatMap (fun v => (lexProduct rest).map (fun t => v :: t))

/-- The mixed-radix digits of `n` for the given list of domain sizes
(most significant digit first).  Used purely as a proof device relating
`lexProduct` to positions. -/
def unrank : List Nat → Nat → List Nat
  | [], _ => []
  | _ :: rest, n => n / rest.prod :: unrank rest (n % rest.prod)

/-- The loop of `TableBayesNetNode.distribution_index`: sum
`world[parent] * parent_multiplier[i]` over the enumerated parents,
raising `KeyError` for a missing parent value, `TypeError` for a
non-integer parent value, and `IndexError` for a missing multiplier. -/
def diAux (mult : List Nat) (w : World) : List Nat → Nat → Except Err Nat
  | [], _ => .ok 0
  | p :: rest, i =>
    match wLookup w p with
    | none => .error Err.keyError
    | some (Val.vreal _) => .error Err.typeError
    | some (Val.vnat v) =>
      match mult[i]? with
      | none => .error Err.indexError
      | some m =>
        match diAux mult w rest (i + 1) with
        | .error e => .error e
        | .ok s => .ok (v * m + s)

/-- `TableBayesNetNode.distribution_index`: look up each parent's value
in the world and combine it with the parent's multiplier. -/
def distribution_index (parents : List Nat) (mult : List Nat) (w : World) :
    Except Err Nat :=
  diAux mult w parents 0

/-- `dict(zip(self.parents, parent_values))` from
`TableBayesNetNode.compute_distributions`. -/
def mkNatWorld (parents vals : List Nat) : World :=
  (List.zip parents vals).map (fun pv => (pv.1, Val.vnat pv.2))

/-! ### Lemmas about the multiplier computation -/

theorem cpmAux_append (s : Nat) :
    ∀ (xs : List Nat) (m : Nat), cpmAux (xs ++ [s]) m = cpmAux xs m ++ [m * xs.prod] := by
  intro xs
  induction xs with
  | nil => intro m; simp [cpmAux]
  | cons x xs ih => intro m; simp [cpmAux, ih, mul_assoc]

theorem compute_parent_multipliers_cons (s : Nat) (rest : List Nat) :
    compute_parent_multipliers (s :: rest) =
      rest.prod :: compute_parent_multipliers rest := by
  unfold compute_parent_multipliers
  rw [List.reverse_cons, cpmAux_append, List.reverse_append]
  simp [List.prod_reverse]

theorem length_compute_parent_multipliers (sizes : List Nat) :
    (compute_parent_multipliers sizes).length = sizes.length := by
  induction sizes with
  | nil => rfl
  | cons s rest ih => rw [compute_parent_multipliers_cons]; simp [ih]

theorem compute_parent_multipliers_getD (sizes : List Nat) :
    ∀ i, i < sizes.length →
      (compute_parent_multipliers sizes).getD i 0 = ((sizes.drop (i + 1)).prod) := by
  induction sizes with
  | nil => intro i h; simp at h
  | cons s rest ih =>
    intro i h
    rw [compute_parent_multipliers_cons]
    cases i with
    | zero => simp
    | succ j =>
      rw [List.getD_cons_succ, List.drop_succ_cons]
      exact ih j (by simpa using h)

/-! ### Lemmas relating `lexProduct` to mixed-radix positions -/

theorem range_mul_flatMap (s P : Nat) :
    List.range (s * P) =
      (List.range s).flatMap (fun v => (List.range P).map (fun r => v * P + r)) := by
  induction s with
  | zero => simp
  | succ s ih =>
    rw [Nat.succ_mul, List.range_add, List.range_succ, List.flatMap_append, ih]
    simp [List.flatMap]

theorem flatMap_congr {α β : Type} {l : List α} {f g : α → List β}
    (h : ∀ a ∈ l, f a = g a) : l.flatMap f = l.flatMap g := by
  induction l with
  | nil => rfl
  | cons a l ih =>
    simp only [List.flatMap_cons]
    rw [h a (List.mem_cons_self a l), ih (fun b hb => h b (List.mem_cons_of_mem a hb))]

theorem lexProduct_ranges (sizes : List Nat) :
    lexProduct (sizes.map List.range) =
      (List.range sizes.prod).map (unrank sizes) := by
  induction sizes with
  | nil => simp [lexProduct, unrank]
  | cons s rest ih =>
    simp only [List.map_cons, lexProduct, ih, List.prod_cons]
    rw [range_mul_flatMap s rest.prod, List.map_flatMap]
    apply flatMap_congr
    intro v _
    rw [List.map_map, List.map_map]
    apply List.map_congr_left
    intro r hr
    have hrP : r < rest.prod := List.mem_range.mp hr
    have hP : 0 < rest.prod := Nat.pos_of_ne_zero (fun h0 => by
      rw [h0] at hrP; exact absurd hrP (Nat.not_lt_zero r))
    have hdiv : (v * rest.prod + r) / rest.prod = v := by
      rw [mul_comm, Nat.mul_add_div hP, Nat.div_eq_of_lt hrP, Nat.add_zero]
    have hmod : (v * rest.prod + r) % rest.prod = r := by
      rw [mul_comm, Nat.mul_add_mod, Nat.mod_eq_of_lt hrP]
    simp only [Function.comp_apply, unrank, hdiv, hmod]

theorem unrank_distribution_index (sizes : List Nat) :
    ∀ n, n < sizes.prod →
      distribution_index_core (unrank sizes n) (compute_parent_multipliers sizes) = n := by
  induction sizes with
  | nil =>
    intro n h
    simp only [List.prod_nil, Nat.lt_one_iff] at h
    subst h
    rfl
  | cons s rest ih =>
    intro n h
    rw [compute_parent_multipliers_cons]
    have hP : 0 < rest.prod := by
      rcases Nat.eq_zero_or_pos rest.prod with h0 | h0
      · rw [List.prod_cons, h0, Nat.mul_zero] at h; exact absurd h (Nat.not_lt_zero n)
      · exact h0
    have hmod : n % rest.prod < rest.prod := Nat.mod_lt n hP
    simp only [unrank, distribution_index_core, List.zipWith_cons_cons, List.sum_cons]
    have := ih (n % rest.prod) hmod
    rw [distribution_index_core] at this
    rw [this, mul_comm, Nat.div_add_mod]

/-- The mixed-radix index of a digit tuple is bounded by the product of
the sizes. -/
theorem distribution_index_core_lt (sizes : List Nat) :
    ∀ vals, vals.length = sizes.length →
      (∀ i, i < vals.length → vals.getD i 0 < sizes.getD i 0) →
      distribution_index_core vals (compute_parent_multipliers sizes) < sizes.prod := by
  induction sizes with
  | nil =>
    intro vals hlen _
    rw [List.length_nil, List.length_eq_zero] at hlen
    subst hlen
    simp [distribution_index_core]
  | cons s rest ih =>
    intro vals hlen hv
    match vals, hlen with
    | v :: vs, hlen =>
      have hlen' : vs.length = rest.length := by simpa using hlen
      have hv0 : v < s := by simpa using hv 0 (by simp)
      have hrest := ih vs hlen' (fun i hi => by
        have := hv (i + 1) (by simpa using Nat.succ_lt_succ hi)
        simpa using this)
      rw [compute_parent_multipliers_cons]
      simp only [distribution_index_core, List.zipWith_cons_cons, List.sum_cons, List.prod_cons]
      rw [distribution_index_core] at hrest
      calc v * rest.prod + (List.zipWith (· * ·) vs (compute_parent_multipliers rest)).sum
          < v * rest.prod + rest.prod := Nat.add_lt_add_left hrest _
        _ = (v + 1) * rest.prod := by ring
        _ ≤ s * rest.prod := Nat.mul_le_mul_right _ hv0

theorem wLookup_cons (a : Nat) (b : Val) (w : World) (k : Nat) :
    wLookup ((a, b) :: w) k = if a = k then some b else wLookup w k := by
  by_cases h : a = k
  · simp [wLookup, List.find?, h]
  · have hb : (a == k) = false := beq_eq_false_iff_ne.mpr h
    simp [wLookup, List.find?, hb, h]

theorem wLookup_mkNatWorld :
    ∀ (parents vals : List Nat), parents.Nodup → vals.length = parents.length →
      ∀ j, j < parents.length →
        wLookup (mkNatWorld parents vals) (parents.getD j 0) =
          some (Val.vnat (vals.getD j 0)) := by
  intro parents
  induction parents with
  | nil => intro vals _ _ j hj; simp at hj
  | cons p ps ih =>
    intro vals hnd hlen j hj
    match vals with
    | v :: vs =>
      have hnd' : ps.Nodup := hnd.of_cons
      have hp : p ∉ ps := (List.nodup_cons.mp hnd).1
      have hlen' : vs.length = ps.length := by simpa using hlen
      cases j with
      | zero =>
        simp only [mkNatWorld, List.zip_cons_cons, List.map_cons, List.getD_cons_zero]
        rw [wLookup_cons, if_pos rfl]
      | succ j =>
        have hj' : j < ps.length := by simpa using hj
        have hqmem : ps.getD j 0 ∈ ps := by
          rw [List.getD_eq_getElem?_getD, List.getElem?_eq_getElem hj']
          exact List.getElem_mem hj'
        have hne : p ≠ ps.getD j 0 := fun h => hp (h ▸ hqmem)
        simp only [mkNatWorld, List.zip_cons_cons, List.map_cons, List.getD_cons_succ]
        rw [wLookup_cons, if_neg hne]
        exact ih vs hnd' hlen' j hj'

theorem diAux_eq_core (mult : List Nat) (w : World) :
    ∀ (parents vals : List Nat) (i : Nat),
      vals.length = parents.length →
      i + parents.length ≤ mult.length →
      (∀ j, j < parents.length →
        wLookup w (parents.getD j 0) = some (Val.vnat (vals.getD j 0))) →
      diAux mult w parents i = .ok ((List.zipWith (· * ·) vals (mult.drop i)).sum) := by
  intro parents
  induction parents with
  | nil =>
    intro vals i hlen _ _
    rw [List.length_nil, List.length_eq_zero] at hlen
    subst hlen
    simp [diAux]
  | cons p ps ih =>
    intro vals i hlen hle h
    match vals with
    | v :: vs =>
      have hlen' : vs.length = ps.length := by simpa using hlen
      have hlook : wLookup w p = some (Val.vnat v) := by
        simpa using h 0 (Nat.succ_pos _)
      have hi : i < mult.length := by
        have := hle
        simp only [List.length_cons] at this
        omega
      have hmi : mult[i]? = some mult[i] := List.getElem?_eq_getElem hi
      have hrec : diAux mult w ps (i + 1) =
          .ok ((List.zipWith (· * ·) vs (mult.drop (i + 1))).sum) := by
        apply ih vs (i + 1) hlen'
        · simp only [List.length_cons] at hle; omega
        · intro j hj
          have := h (j + 1) (by simpa using Nat.succ_lt_succ hj)
          simpa using this
      simp only [diAux, hlook, hmi, hrec]
      rw [List.drop_eq_getElem_cons hi, List.zipWith_cons_cons, List.sum_cons]

/-- C1: for a table node whose sorted parents have domain sizes
`d_1..d_k`, the compiled multiplier vector has `multiplier[i]` equal to
the product of the sizes after position `i`; `distribution_index` of a
world assigning `v_i` to the `i`-th parent is `Σ v_i * multiplier[i]`;
the `n`-th tuple of the lexicographic Cartesian product of the parent
supports has index exactly `n`; and for sizes `[2,3,4]` the multipliers
are `[12,4,1]` and parent values `(1,2,3)` give index `23`. -/
theorem claim1_mixed_radix_indexing :
    (∀ sizes : List Nat, ∀ i, i < sizes.length →
        (compute_parent_multipliers sizes).getD i 0 = ((sizes.drop (i + 1)).prod))
    ∧ (∀ (parents vals mult : List Nat), parents.Nodup →
        vals.length = parents.length → parents.length ≤ mult.length →
        distribution_index parents mult (mkNatWorld parents vals) =
          .ok (distribution_index_core vals mult))
    ∧ (∀ (sizes : List Nat) (n : Nat), n < (lexProduct (sizes.map List.range)).length →
        distribution_index_core ((lexProduct (sizes.map List.range)).getD n [])
          (compute_parent_multipliers sizes) = n)
    ∧ compute_parent_multipliers [2, 3, 4] = [12, 4, 1]
    ∧ distribution_index_core [1, 2, 3] (compute_parent_multipliers [2, 3, 4]) = 23 := by
  refine ⟨compute_parent_multipliers_getD, ?_, ?_, by decide, by decide⟩
  · intro parents vals mult hnd hlen hle
    rw [distribution_index,
      diAux_eq_core mult _ parents vals 0 hlen (by simpa using hle)
        (wLookup_mkNatWorld parents vals hnd hlen),
      List.drop_zero]
    rfl
  · intro sizes n hn
    rw [lexProduct_ranges] at hn ⊢
    rw [List.length_map, List.length_range] at hn
    rw [List.getD_eq_getElem?_getD, List.getElem?_map,
      List.getElem?_eq_getElem (by simpa using hn)]
    simp only [List.getElem_range, Option.map_some', Option.getD_some]
    exact unrank_distribution_index sizes n hn

/-- Witness for C1: the hypotheses instantiated at sizes `[2,3,4]`,
parents `[10,20,30]`, parent values `(1,2,3)` and position `23`. -/
theorem claim1_mixed_radix_indexing_witness :
    (compute_parent_multipliers [2, 3, 4]).getD 0 0 = 12
    ∧ distribution_index [10, 20, 30] (compute_parent_multipliers [2, 3, 4])
        (mkNatWorld [10, 20, 30] [1, 2, 3]) = .ok 23
    ∧ distribution_index_core ((lexProduct ([2, 3, 4].map List.range)).getD 23 [])
        (compute_parent_multipliers [2, 3, 4]) = 23 := by
  refine ⟨?_, ?_, ?_⟩
  · have := claim1_mixed_radix_indexing.1 [2, 3, 4] 0 (by decide)
    rw [this]
    decide
  · have := claim1_mixed_radix_indexing.2.1 [10, 20, 30] [1, 2, 3]
      (compute_parent_multipliers [2, 3, 4]) (by decide) (by decide) (by decide)
    rw [this, show distribution_index_core [1, 2, 3]
      (compute_parent_multipliers [2, 3, 4]) = 23 by decide]
  · exact claim1_mixed_radix_indexing.2.2.1 [2, 3, 4] 23 (by decide)

/-! ## Nodes and networks -/

/-- The closed set of node variants of `bayesnet.py`: table nodes
(`TableBayesNetNode`), discrete distribution nodes (`DistBayesNetNode`),
continuous distribution nodes (`DistRealBayesNetNode`) and deterministic
continuous nodes (`DeterministicRealBayesNetNode`).  The injected
distribution collaborators are modelled as pure functions of the parent
values. -/
inductive NodeKind where
  | table (domain_size : Nat) (cpt_probabilities : List ℝ)
  | dist (domain_size : Nat) (sampleFn : List Val → Val) (logProbFn : List Val → Val → ℝ)
  | distReal (sampleFn : List Val → Val) (logProbFn : List Val → Val → ℝ)
  | detReal (function : List Val → Val)

/-- A Bayes net node: its immutable identity and variant data, plus the
mutable fields written by `compile` (`markov_blanket`, and for table
nodes `parent_multiplier` and `distributions`). -/
structure Node where
  index : Nat
  kind : NodeKind
  compiled : Bool := false
  markov_blanket : Option (List Nat) := none
  parent_multiplier : Option (List Nat) := none
  distributions : Option (List CategoricalDistribution) := none

/-- `domain_size` as set by `set_domain_size`: it stays unset (`None`)
when the constructor argument is falsy (zero) and for continuous
nodes (whose `'R'` marker is not an integer size). -/
def NodeKind.domainSize? : NodeKind → Option Nat
  | .table ds _ => if ds = 0 then none else some ds
  | .dist ds _ _ => if ds = 0 then none else some ds
  | .distReal _ _ => none
  | .detReal _ => none

def Node.domainSize? (nd : Node) : Option Nat :=
  nd.kind.domainSize?

/-- The discrete support `range(domain_size)`, when set. -/
def NodeKind.support? (k : NodeKind) : Option (List Nat) :=
  k.domainSize?.map List.range

def Node.support? (nd : Node) : Option (List Nat) :=
  nd.kind.support?

/-- The `support` attribute as compared by `BayesNetMap.add_net`:
unset, a discrete `range(domain_size)` list, or the `'R'` marker of
continuous nodes. -/
inductive SupportDesc where
  | undef
  | range (l : List Nat)
  | real
deriving DecidableEq, Repr

def Node.supportDesc (nd : Node) : SupportDesc :=
  match nd.kind with
  | .table ds _ => if ds = 0 then .undef else .range (List.range ds)
  | .dist ds _ _ => if ds = 0 then .undef else .range (List.range ds)
  | .distReal _ _ => .real
  | .detReal _ => .real

/-- `BayesNet`: the node registry (`nodes_by_index`, kept in
registration order), the directed edge relation over node indices, and
the derived fields written by `compile`. -/
structure BayesNet where
  nodes : List Node
  edges : List (Nat × Nat)
  nodes_by_topology : Option (List Nat) := none
  node_count : Option Nat := none
  compiled : Bool := false

def BayesNet.indices (net : BayesNet) : List Nat := net.nodes.map (·.index)

/-- The graph predecessors of node `i` (by index, in registry order). -/
def BayesNet.predecessors (net : BayesNet) (i : Nat) : List Nat :=
  net.indices.filter (fun j => net.edges.contains (j, i))

/-- The graph successors of node `i` (by index, in registry order). -/
def BayesNet.successors (net : BayesNet) (i : Nat) : List Nat :=
  net.indices.filter (fun j => net.edges.contains (i, j))

/-- `BayesNetNode.parents`: the predecessors sorted by index. -/
def BayesNet.parentsOf (net : BayesNet) (i : Nat) : List Nat :=
  List.insertionSort (· ≤ ·) (net.predecessors i)

/-- `BayesNetNode.children`: the successors sorted by index. -/
def BayesNet.childrenOf (net : BayesNet) (i : Nat) : List Nat :=
  List.insertionSort (· ≤ ·) (net.successors i)

def BayesNet.findNode (net : BayesNet) (i : Nat) : Option Node :=
  net.nodes.find? (fun nd => nd.index == i)

/-- `BayesNetNode.compute_markov_blanket`: parents, children and
children's parents, with the node itself removed, deduplicated and
sorted by index. -/
def BayesNet.compute_markov_blanket (net : BayesNet) (i : Nat) : List Nat :=
  let coparents := (net.childrenOf i).flatMap (fun c => net.parentsOf c)
  let overcomplete := net.parentsOf i ++ net.childrenOf i ++ coparents
  List.insertionSort (· ≤ ·) ((overcomplete.filter (fun x => x ≠ i)).dedup)

/-- A node of `remaining` with no incoming edge from `remaining`. -/
def noIncoming (edges : List (Nat × Nat)) (remaining : List Nat) (v : Nat) : Bool :=
  !(remaining.any (fun u => edges.contains (u, v)))

/-- Kahn's algorithm with explicit fuel: repeatedly remove a node
without incoming edges among the remaining ones; report failure
(`none`) when stuck. -/
def kahnAux (edges : List (Nat × Nat)) : Nat → List Nat → Option (List Nat)
  | 0, remaining => if remaining.isEmpty then some [] else none
  | fuel + 1, remaining =>
    if remaining.isEmpty then some []
    else
      match remaining.find? (noIncoming edges remaining) with
      | none => none
      | some v => (kahnAux edges fuel (remaining.erase v)).map (fun l => v :: l)

/-- Modelled from the spec: `networkx.topological_sort` is an external
graph collaborator that produces a valid topological order of the
node/edge relation and signals failure when the edge relation contains
a cycle. -/
def BayesNet.topological_sort (net : BayesNet) : Option (List Nat) :=
  kahnAux net.edges net.indices.length net.indices

def orErr {α : Type} (o : Option α) (e : Err) : Except Err α :=
  match o with
  | some a => .ok a
  | none => .error e

/-- The integer domain sizes of the given parent indices, failing
(`TypeError`) when some parent has no integer domain size. -/
def parentSizes (net : BayesNet) : List Nat → Except Err (List Nat)
  | [] => .ok []
  | p :: rest =>
    match (net.findNode p).bind Node.domainSize? with
    | none => .error Err.typeError
    | some d =>
      match parentSizes net rest with
      | .error e => .error e
      | .ok ds => .ok (d :: ds)

/-- `TableBayesNetNode.compute_parent_multipliers` against the net: the
multiplier list computed from the domain sizes of the sorted parents of
the node with index `i`. -/
def compute_parent_multipliers_at (net : BayesNet) (i : Nat) :
    Except Err (List Nat) :=
  match parentSizes net (net.parentsOf i) with
  | .error e => .error e
  | .ok sizes => .ok (compute_parent_multipliers sizes)

/-- The discrete supports of the given parent indices, failing when some
parent has no discrete support. -/
def parentSupports (net : BayesNet) : List Nat → Except Err (List (List Nat))
  | [] => .ok []
  | p :: rest =>
    match (net.findNode p).bind Node.support? with
    | none => .error Err.typeError
    | some s =>
      match parentSupports net rest with
      | .error e => .error e
      | .ok ss => .ok (s :: ss)

/-- The `for i, parent_values in enumerate(parent_value_product)` loop
of `TableBayesNetNode.compute_distributions`: build one categorical
distribution per parent-value tuple from the CPT slice
`cpt[i*ds : i*ds+ds]`, cross-checking that `distribution_index` of the
tuple's world is the enumeration position; also return the last slice
offset `j` used (0 when the product is empty). -/
def cdLoop (parents mult support : List Nat) (ds : Nat) (cpt : List ℝ) :
    List (List Nat) → Nat → Nat → Except Err (List CategoricalDistribution × Nat)
  | [], _, jcur => .ok ([], jcur)
  | t :: rest, i, _ =>
    match distribution_index parents mult (mkNatWorld parents t) with
    | .error e => .error e
    | .ok idx =>
      if idx = i then
        match cdLoop parents mult support ds cpt rest (i + 1) (i * ds) with
        | .error e => .error e
        | .ok (dists, jfin) =>
          .ok (⟨support, (cpt.drop (i * ds)).take ds⟩ :: dists, jfin)
      else .error Err.assertionError

/-- `TableBayesNetNode.compute_distributions` for the node with index
`i` and variant data `kind`: one categorical distribution per
parent-value combination, in lexicographic enumeration order, with the
final length assertion `j + domain_size == len(cpt_probabilities)`. -/
def compute_distributions_at (net : BayesNet) (i : Nat) (kind : NodeKind)
    (mult : List Nat) : Except Err (List CategoricalDistribution) :=
  match kind with
  | .table _ cpt =>
    if cpt.isEmpty then .error Err.assertionError
    else
      match kind.domainSize?, kind.support? with
      | some ds, some support =>
        (match parentSupports net (net.parentsOf i) with
        | .error e => .error e
        | .ok supports =>
          match cdLoop (net.parentsOf i) mult support ds cpt
              (lexProduct supports) 0 0 with
          | .error e => .error e
          | .ok (dists, j) =>
            if j + ds = cpt.length then .ok dists else .error Err.assertionError)
      | _, _ => .error Err.typeError
  | _ => .error Err.typeError

/-- `BayesNetNode.compile` (markov blanket only) and
`TableBayesNetNode.compile` (markov blanket, multipliers and
distribution cache). -/
def Node.compile (net : BayesNet) (nd : Node) : Except Err Node :=
  match nd.kind with
  | .table _ _ =>
    match compute_parent_multipliers_at net nd.index with
    | .error e => .error e
    | .ok mult =>
      match compute_distributions_at net nd.index nd.kind mult with
      | .error e => .error e
      | .ok dists =>
        .ok { nd with
              markov_blanket := some (net.compute_markov_blanket nd.index),
              parent_multiplier := some mult,
              distributions := some dists,
              compiled := true }
  | _ =>
    .ok { nd with
          markov_blanket := some (net.compute_markov_blanket nd.index),
          compiled := true }

/-- One iteration of the `for node in self.nodes_by_topology` loop of
`BayesNet.compile`: compile the node with index `i` and store the
result back in the registry. -/
def compileStep (net : BayesNet) (nodes : List Node) (i : Nat) : Except Err (List Node) :=
  match nodes.find? (fun nd => nd.index == i) with
  | none => .error Err.keyError
  | some nd =>
    match Node.compile net nd with
    | .error e => .error e
    | .ok nd' => .ok (nodes.map (fun m => if m.index == i then nd' else m))

def compileFold (net : BayesNet) : List Nat → List Node → Except Err (List Node)
  | [], nodes => .ok nodes
  | i :: rest, nodes =>
    match compileStep net nodes i with
    | .error e => .error e
    | .ok nodes' => compileFold net rest nodes'

/-- The topological order used by `BayesNet.compile`: the stored one if
present, otherwise a fresh topological sort, failing on a cycle. -/
def BayesNet.topoOrErr (net : BayesNet) : Except Err (List Nat) :=
  match net.nodes_by_topology with
  | some t => .ok t
  | none =>
    match net.topological_sort with
    | some t => .ok t
    | none => .error Err.cycleError

/-- `sorted(self.nodes(), key=lambda node: node.index)`. -/
def sortByIndex (nodes : List Node) : List Node :=
  List.insertionSort (fun a b => a.index ≤ b.index) nodes

/-- `BayesNet.compile`: compute (or reuse) the topological order, sort
the registry by index, check index contiguity
(`[n.index for n in nodes] == range(last.index + 1)`), then compile
every node in topological order. -/
def BayesNet.compile (net : BayesNet) : Except Err BayesNet :=
  match net.topoOrErr with
  | .error e => .error e
  | .ok topo =>
    match (sortByIndex net.nodes).getLast? with
    | none => .error Err.indexError
    | some lastN =>
      if (sortByIndex net.nodes).map (·.index) = List.range (lastN.index + 1) then
        match compileFold { net with nodes := sortByIndex net.nodes } topo
            (sortByIndex net.nodes) with
        | .error e => .error e
        | .ok nodes' =>
          .ok { net with
                nodes := nodes',
                nodes_by_topology := some topo,
                node_count := some (sortByIndex net.nodes).length,
                compiled := true }
      else .error Err.assertionError

/-- The values of the given (sorted) parent indices fetched from the
world, raising `KeyError` when one is missing. -/
def parentValues (w : World) : List Nat → Except Err (List Val)
  | [] => .ok []
  | p :: rest =>
    match wLookup w p with
    | none => .error Err.keyError
    | some v =>
      match parentValues w rest with
      | .error e => .error e
      | .ok vs => .ok (v :: vs)

/-- `sample` of the node variants.  A table node requires compilation
and draws from the cached distribution selected by
`distribution_index`; the other variants evaluate their injected
distribution or function on the parent values. -/
def Node.sample (net : BayesNet) (nd : Node) (w : World) (rng : Nat) :
    Except Err (Val × Nat) :=
  match nd.kind with
  | .table _ _ =>
    if nd.compiled then
      match nd.parent_multiplier with
      | none => .error Err.typeError
      | some mult =>
        match nd.distributions with
        | none => .error Err.typeError
        | some dists =>
          match distribution_index (net.parentsOf nd.index) mult w with
          | .error e => .error e
          | .ok i =>
            match dists[i]? with
            | none => .error Err.indexError
            | some d => d.sample rng
    else .error Err.assertionError
  | .dist _ sf _ =>
    match parentValues w (net.parentsOf nd.index) with
    | .error e => .error e
    | .ok pv => .ok (sf pv, rng)
  | .distReal sf _ =>
    match parentValues w (net.parentsOf nd.index) with
    | .error e => .error e
    | .ok pv => .ok (sf pv, rng)
  | .detReal f =>
    match parentValues w (net.parentsOf nd.index) with
    | .error e => .error e
    | .ok pv => .ok (f pv, rng)

/-- `log_probability` of the node variants. -/
noncomputable def Node.log_probability (net : BayesNet) (nd : Node) (w : World)
    (v : Val) : Except Err ℝ :=
  match nd.kind with
  | .table _ _ =>
    if nd.compiled then
      match nd.parent_multiplier with
      | none => .error Err.typeError
      | some mult =>
        match nd.distributions with
        | none => .error Err.typeError
        | some dists =>
          match distribution_index (net.parentsOf nd.index) mult w with
          | .error e => .error e
          | .ok i =>
            match dists[i]? with
            | none => .error Err.indexError
            | some d => .ok (d.log_probability v)
    else .error Err.assertionError
  | .dist _ _ lf =>
    match parentValues w (net.parentsOf nd.index) with
    | .error e => .error e
    | .ok pv => .ok (lf pv v)
  | .distReal _ lf =>
    match parentValues w (net.parentsOf nd.index) with
    | .error e => .error e
    | .ok pv => .ok (lf pv v)
  | .detReal f =>
    match parentValues w (net.parentsOf nd.index) with
    | .error e => .error e
    | .ok pv => .ok (if f pv = v then (0 : ℝ) else LOG_PROB_0)

/-- The `for node in self.nodes_by_topology` loop of `BayesNet.sample`:
insert a sampled value for every node absent from the world. -/
def sampleLoop (net : BayesNet) : List Nat → World → Nat → Except Err (World × Nat)
  | [], w, rng => .ok (w, rng)
  | i :: rest, w, rng =>
    if wContains w i then sampleLoop net rest w rng
    else
      match net.findNode i with
      | none => .error Err.keyError
      | some nd =>
        match Node.sample net nd w rng with
        | .error e => .error e
        | .ok (v, rng') => sampleLoop net rest (wInsert w i v) rng'

/-- `BayesNet.sample`.  The returned quadruple records the returned
world, the caller's world object as it stands after the call, whether
the returned world is the caller's own object (in-place mutation), and
the final generator state.  A falsy (absent or empty) seed starts from
a fresh empty assignment; otherwise the seed is copied unless
`mutate_world` is set. -/
def BayesNet.sample (net : BayesNet) (world : Option World) (mutate_world : Bool)
    (rng : Nat) : Except Err (World × World × Bool × Nat) :=
  match net.nodes_by_topology with
  | none => .error Err.typeError
  | some topo =>
    let seed := world.getD []
    if seed.isEmpty then
      match sampleLoop net topo [] rng with
      | .error e => .error e
      | .ok (res, rng') => .ok (res, seed, false, rng')
    else
      if mutate_world then
        match sampleLoop net topo seed rng with
        | .error e => .error e
        | .ok (res, rng') => .ok (res, res, true, rng')
      else
        match sampleLoop net topo seed rng with
        | .error e => .error e
        | .ok (res, rng') => .ok (res, seed, false, rng')

/-- One summand `node.log_probability(world, world[node])` of
`BayesNet.log_probability`. -/
noncomputable def nodeTerm (net : BayesNet) (w : World) (nd : Node) : Except Err ℝ :=
  match wLookup w nd.index with
  | none => .error Err.keyError
  | some v => Node.log_probability net nd w v

noncomputable def lpFold (net : BayesNet) (w : World) : List Node → ℝ → Except Err ℝ
  | [], acc => .ok acc
  | nd :: rest, acc =>
    match nodeTerm net w nd with
    | .error e => .error e
    | .ok t => lpFold net w rest (acc + t)

/-- `BayesNet.log_probability`: assert that the world has exactly
`node_count` entries, then sum the per-node log probabilities over
`nodes_by_index`. -/
noncomputable def BayesNet.log_probability (net : BayesNet) (w : World) :
    Except Err ℝ :=
  match net.node_count with
  | none => .error Err.assertionError
  | some c =>
    if w.length = c then lpFold net w net.nodes 0 else .error Err.assertionError

/-! ## `BayesNetMap` -/

/-- The `node_count` attribute of a `BayesNetMap`: the initial `-1`
marker, or the `node_count` recorded from the first network (which is
`None` for an uncompiled network). -/
inductive NCRecord where
  | initial
  | recorded (c : Option Nat)
deriving DecidableEq, Repr

/-- `BayesNetMap`: a keyed registry of networks sharing node count and
per-node supports. -/
structure BayesNetMap (K : Type) [DecidableEq K] where
  nets_by_key : List (K × BayesNet)
  node_count : NCRecord := .initial
  supports : List SupportDesc := []

/-- `BayesNetMap.add_net`, with Python's mutate-then-maybe-raise
behaviour made explicit: the result is the map after the call together
with the raised error, if any. -/
def BayesNetMap.add_net {K : Type} [DecidableEq K] (m : BayesNetMap K) (key : K)
    (net : BayesNet) : BayesNetMap K × Option Err :=
  if key ∈ m.nets_by_key.map Prod.fst then (m, some Err.assertionError)
  else
    match m.node_count with
    | .initial =>
      if m.nets_by_key.isEmpty then
        ({ nets_by_key := m.nets_by_key ++ [(key, net)],
           node_count := .recorded net.node_count,
           supports := net.nodes.map Node.supportDesc }, none)
      else (m, some Err.assertionError)
    | .recorded c =>
      if net.node_count = c then
        if (List.zip net.nodes m.supports).all
            (fun p => p.1.supportDesc == p.2) then
          ({ m with nets_by_key := m.nets_by_key ++ [(key, net)] }, none)
        else (m, some Err.assertionError)
      else (m, some Err.assertionError)

/-! ## Concrete example networks -/

def nodeA : Node := { index := 0, kind := .table 2 [0.4, 0.6] }

def nodeB : Node := { index := 1, kind := .table 2 [0.1, 0.9, 0.2, 0.8] }

def nodeC : Node := { index := 2, kind := .table 2 [0.25, 0.75, 0.5, 0.5] }

def nodeD : Node := { index := 3, kind := .table 2 [0.3, 0.7, 0.6, 0.4] }

/-- The network `A→B, A→C, B→D` of the Markov-blanket example. -/
def netABCD : BayesNet :=
  { nodes := [nodeA, nodeB, nodeC, nodeD], edges := [(0, 1), (0, 2), (1, 3)] }

def netABCDc : BayesNet :=
  match netABCD.compile with
  | .ok n => n
  | .error _ => netABCD

/-- The cyclic network `X→Y, Y→X` of the cycle-rejection example. -/
def netXY : BayesNet :=
  { nodes := [{ index := 0, kind := .table 2 [0.5, 0.5] },
              { index := 1, kind := .table 2 [0.5, 0.5] }],
    edges := [(0, 1), (1, 0)] }

def node8a : Node := { index := 0, kind := .table 3 [0.2, 0.3, 0.5] }

def node8b : Node := { index := 0, kind := .table 4 [0.1, 0.2, 0.3, 0.4] }

def net8a : BayesNet := { nodes := [node8a], edges := [], node_count := some 1 }

def net8b : BayesNet := { nodes := [node8b], edges := [], node_count := some 1 }

/-- A `BayesNetMap` holding `net8a` under key `0`. -/
def map8 : BayesNetMap Nat :=
  (BayesNetMap.add_net { nets_by_key := [], node_count := .initial, supports := [] }
    0 net8a).1

/-! ## C3: Markov blanket -/

/-- C3: the computed Markov blanket is duplicate-free, sorted by index,
and contains exactly the parents, children and children's parents other
than the node itself; on the compiled network `A→B, A→C, B→D` the
stored blanket of `A` is `{B, C}` and that of `B` is `{A, D}`. -/
theorem claim3_markov_blanket :
    (∀ (net : BayesNet) (i : Nat),
        (net.compute_markov_blanket i).Nodup
        ∧ List.Sorted (· ≤ ·) (net.compute_markov_blanket i)
        ∧ (∀ x, x ∈ net.compute_markov_blanket i ↔
            x ≠ i ∧ (x ∈ net.parentsOf i ∨ x ∈ net.childrenOf i ∨
              ∃ c ∈ net.childrenOf i, x ∈ net.parentsOf c)))
    ∧ netABCD.compile = .ok netABCDc
    ∧ (netABCDc.findNode 0).map Node.markov_blanket = some (some [1, 2])
    ∧ (netABCDc.findNode 1).map Node.markov_blanket = some (some [0, 3]) := by
  refine ⟨?_, rfl, rfl, rfl⟩
  intro net i
  refine ⟨?_, ?_, ?_⟩
  · exact (List.nodup_dedup _).perm (List.perm_insertionSort _ _).symm
  · exact List.sorted_insertionSort _ _
  · intro x
    simp only [BayesNet.compute_markov_blanket, List.mem_insertionSort, List.mem_dedup,
      List.mem_filter, List.mem_append, List.mem_flatMap, decide_eq_true_eq]
    tauto

/-! ## C9: cycle rejection -/

/-- A directed cycle: a nonempty list of indices, each of which has an
edge to the cyclically next one. -/
def IsDirectedCycle (edges : List (Nat × Nat)) (c : List Nat) : Prop :=
  c ≠ [] ∧ ∀ i, i < c.length → (c.getD i 0, c.getD ((i + 1) % c.length) 0) ∈ edges

theorem cycle_members_trapped (edges : List (Nat × Nat)) (c : List Nat)
    (h : IsDirectedCycle edges c) : ∀ v ∈ c, ∃ u ∈ c, (u, v) ∈ edges := by
  intro v hv
  obtain ⟨j, hj, hjv⟩ := List.getElem_of_mem hv
  have hlen : 0 < c.length := List.length_pos.mpr h.1
  have hjD : c.getD j 0 = v := by
    rw [List.getD_eq_getElem?_getD, List.getElem?_eq_getElem hj]
    simpa using hjv
  cases j with
  | zero =>
    refine ⟨c.getD (c.length - 1) 0, ?_, ?_⟩
    · have hlt : c.length - 1 < c.length := by omega
      rw [List.getD_eq_getElem?_getD, List.getElem?_eq_getElem hlt]
      exact List.getElem_mem hlt
    · have := h.2 (c.length - 1) (by omega)
      have hmod : (c.length - 1 + 1) % c.length = 0 := by
        have : c.length - 1 + 1 = c.length := by omega
        rw [this, Nat.mod_self]
      rw [hmod] at this
      rwa [hjD] at this
  | succ k =>
    refine ⟨c.getD k 0, ?_, ?_⟩
    · have hlt : k < c.length := by omega
      rw [List.getD_eq_getElem?_getD, List.getElem?_eq_getElem hlt]
      exact List.getElem_mem hlt
    · have := h.2 k (by omega)
      have hmod : (k + 1) % c.length = k + 1 := Nat.mod_eq_of_lt hj
      rw [hmod] at this
      rwa [hjD] at this

theorem kahnAux_stuck (edges : List (Nat × Nat)) (s : List Nat) (hne : s ≠ [])
    (htrap : ∀ v ∈ s, ∃ u ∈ s, (u, v) ∈ edges) :
    ∀ fuel remaining, (∀ x ∈ s, x ∈ remaining) → kahnAux edges fuel remaining = none := by
  intro fuel
  induction fuel with
  | zero =>
    intro remaining hsub
    obtain ⟨x, hx⟩ := List.exists_mem_of_ne_nil s hne
    have hrem : remaining ≠ [] := fun hnil => by
      have := hsub x hx
      rw [hnil] at this
      exact absurd this (List.not_mem_nil x)
    simp only [kahnAux]
    rw [if_neg (by simpa [List.isEmpty_iff] using hrem)]
  | succ fuel ih =>
    intro remaining hsub
    obtain ⟨x, hx⟩ := List.exists_mem_of_ne_nil s hne
    have hrem : remaining ≠ [] := fun hnil => by
      have := hsub x hx
      rw [hnil] at this
      exact absurd this (List.not_mem_nil x)
    simp only [kahnAux]
    rw [if_neg (by simpa [List.isEmpty_iff] using hrem)]
    cases hfind : remaining.find? (noIncoming edges remaining) with
    | none => rfl
    | some v =>
      have hni : noIncoming edges remaining v = true := List.find?_some hfind
      have hvs : v ∉ s := by
        intro hvmem
        obtain ⟨u, hus, hedge⟩ := htrap v hvmem
        have hur : u ∈ remaining := hsub u hus
        have hany : remaining.any (fun u => edges.contains (u, v)) = true := by
          rw [List.any_eq_true]
          exact ⟨u, hur, List.elem_iff.mpr hedge⟩
        rw [noIncoming, hany] at hni
        simp at hni
      have hsub' : ∀ x ∈ s, x ∈ remaining.erase v := by
        intro y hy
        have hne' : y ≠ v := fun h => hvs (h ▸ hy)
        exact (List.mem_erase_of_ne hne').mpr (hsub y hy)
      simp [ih (remaining.erase v) hsub']

/-- C9: a directed cycle among the network's nodes makes `compile` fail
with the cycle error, producing no compiled network; in particular the
two-node network with edges `(X,Y), (Y,X)` fails to compile. -/
theorem claim9_cycle_rejection :
    (∀ (net : BayesNet) (c : List Nat), net.nodes_by_topology = none →
        IsDirectedCycle net.edges c → (∀ x ∈ c, x ∈ net.indices) →
        net.compile = .error Err.cycleError)
    ∧ netXY.compile = .error Err.cycleError := by
  constructor
  · intro net c htopo hcyc hsub
    have hsort : net.topological_sort = none :=
      kahnAux_stuck net.edges c hcyc.1 (cycle_members_trapped net.edges c hcyc)
        net.indices.length net.indices hsub
    have herr : net.topoOrErr = .error Err.cycleError := by
      rw [BayesNet.topoOrErr, htopo, hsort]
    rw [BayesNet.compile, herr]
  · rfl

/-- Witness for C9: the general statement applied to the concrete
two-node cyclic network with cycle `[0, 1]`. -/
theorem claim9_cycle_rejection_witness :
    netXY.nodes_by_topology = none
    ∧ IsDirectedCycle netXY.edges [0, 1]
    ∧ (∀ x ∈ [0, 1], x ∈ netXY.indices)
    ∧ netXY.compile = .error Err.cycleError := by
  refine ⟨rfl, ?_, ?_, ?_⟩
  · constructor
    · decide
    · decide
  · decide
  · exact claim9_cycle_rejection.1 netXY [0, 1] rfl
      ⟨by decide, by decide⟩ (by decide)

/-! ## C8: `BayesNetMap.add_net` -/

/-- C8: `add_net` fails on a duplicate key; after the first insertion it
fails when the node count or some positional support differs; and
whenever it fails the registered networks are unchanged. -/
theorem claim8_add_net_checks {K : Type} [DecidableEq K] (m : BayesNetMap K)
    (key : K) (net : BayesNet) :
    (key ∈ m.nets_by_key.map Prod.fst →
      (m.add_net key net).2.isSome ∧ (m.add_net key net).1 = m)
    ∧ (∀ c, m.node_count = .recorded c → net.node_count ≠ c →
        (m.add_net key net).2.isSome)
    ∧ (∀ c, m.node_count = .recorded c →
        (∃ p ∈ List.zip net.nodes m.supports, p.1.supportDesc ≠ p.2) →
        (m.add_net key net).2.isSome)
    ∧ ((m.add_net key net).2.isSome →
        (m.add_net key net).1.nets_by_key = m.nets_by_key) := by
  refine ⟨?_, ?_, ?_, ?_⟩
  · intro hkey
    rw [BayesNetMap.add_net, if_pos hkey]
    exact ⟨rfl, rfl⟩
  · intro c hc hne
    by_cases hkey : key ∈ m.nets_by_key.map Prod.fst
    · rw [BayesNetMap.add_net, if_pos hkey]; rfl
    · simp only [BayesNetMap.add_net, if_neg hkey, hc, if_neg hne]
      rfl
  · intro c hc hmis
    by_cases hkey : key ∈ m.nets_by_key.map Prod.fst
    · rw [BayesNetMap.add_net, if_pos hkey]; rfl
    · have hallf : (List.zip net.nodes m.supports).all
          (fun p => p.1.supportDesc == p.2) = false := by
        rw [List.all_eq_false]
        obtain ⟨p, hp, hnep⟩ := hmis
        exact ⟨p, hp, by simpa using hnep⟩
      have hall : ¬ ((List.zip net.nodes m.supports).all
          (fun p => p.1.supportDesc == p.2) = true) := by
        rw [hallf]; simp
      by_cases hcnt : net.node_count = c
      · simp only [BayesNetMap.add_net, if_neg hkey, hc, if_pos hcnt, if_neg hall]
        rfl
      · simp only [BayesNetMap.add_net, if_neg hkey, hc, if_neg hcnt]
        rfl
  · intro hfail
    by_cases hkey : key ∈ m.nets_by_key.map Prod.fst
    · rw [BayesNetMap.add_net, if_pos hkey]
    · cases hnc : m.node_count with
      | initial =>
        by_cases hemp : m.nets_by_key.isEmpty
        · exfalso
          simp only [BayesNetMap.add_net, if_neg hkey, hnc, if_pos hemp] at hfail
          simp at hfail
        · simp only [BayesNetMap.add_net, if_neg hkey, hnc, if_neg hemp]
      | recorded c =>
        by_cases hcnt : net.node_count = c
        · by_cases hall : (List.zip net.nodes m.supports).all
              (fun p => p.1.supportDesc == p.2) = true
          · exfalso
            simp only [BayesNetMap.add_net, if_neg hkey, hnc, if_pos hcnt,
              if_pos hall] at hfail
            simp at hfail
          · simp only [BayesNetMap.add_net, if_neg hkey, hnc, if_pos hcnt, if_neg hall]
        · simp only [BayesNetMap.add_net, if_neg hkey, hnc, if_neg hcnt]

/-- Witness for C8: registering, after `net8a` (domain size 3), a
second network `net8b` whose node 0 has domain size 4 fails and leaves
the registered networks unchanged. -/
theorem claim8_add_net_checks_witness :
    map8.node_count = NCRecord.recorded (some 1)
    ∧ (∃ p ∈ List.zip net8b.nodes map8.supports, p.1.supportDesc ≠ p.2)
    ∧ (map8.add_net 1 net8b).2.isSome = true
    ∧ (map8.add_net 1 net8b).1.nets_by_key = map8.nets_by_key := by
  have hrec : map8.node_count = NCRecord.recorded (some 1) := rfl
  have hmis : ∃ p ∈ List.zip net8b.nodes map8.supports, p.1.supportDesc ≠ p.2 := by
    refine ⟨(node8b, SupportDesc.range [0, 1, 2]), ?_, ?_⟩
    · simp [net8b, map8, BayesNetMap.add_net, net8a, node8a, Node.supportDesc]
      rfl
    · decide
  have hsome := (claim8_add_net_checks map8 1 net8b).2.2.1 (some 1) hrec hmis
  exact ⟨hrec, hmis, hsome, (claim8_add_net_checks map8 1 net8b).2.2.2 hsome⟩

/-! ## C2 and C7: `BayesNet.log_probability` -/

/-- The two-node example network: `node0` with CPT `[0.1, 0.9]`, edge
`node0 → node1`, `node1` with CPT `[0.8, 0.2, 0.3, 0.7]`. -/
def net2 : BayesNet :=
  { nodes := [{ index := 0, kind := .table 2 [0.1, 0.9] },
              { index := 1, kind := .table 2 [0.8, 0.2, 0.3, 0.7] }],
    edges := [(0, 1)] }

def net2c : BayesNet :=
  match net2.compile with
  | .ok n => n
  | .error _ => net2

def n2c0 : Node := (net2c.findNode 0).getD nodeA

def n2c1 : Node := (net2c.findNode 1).getD nodeA

/-- The world `{node0: 1, node1: 0}`. -/
def exWorld2 : World := [(0, Val.vnat 1), (1, Val.vnat 0)]

theorem lpFold_sum (net : BayesNet) (w : World) (f : Node → ℝ) :
    ∀ (nds : List Node) (acc : ℝ),
      (∀ nd ∈ nds, nodeTerm net w nd = .ok (f nd)) →
      lpFold net w nds acc = .ok (acc + (nds.map f).sum) := by
  intro nds
  induction nds with
  | nil => intro acc _; simp [lpFold]
  | cons hd tl ih =>
    intro acc h
    have hhd : nodeTerm net w hd = .ok (f hd) := h hd (List.mem_cons_self hd tl)
    have htl := ih (acc + f hd) (fun nd hnd => h nd (List.mem_cons_of_mem hd hnd))
    simp only [lpFold, hhd, htl, List.map_cons, List.sum_cons]
    rw [add_assoc]

/-- C2: for a compiled network, `log_probability(world)` of a complete
world is the sum of the per-node `node.log_probability(world,
world[node])` terms; in particular on the two-node example network,
`log_probability({node0: 1, node1: 0}) = log 0.9 + log 0.3`. -/
theorem claim2_log_probability_sum :
    (∀ (net : BayesNet) (w : World) (f : Node → ℝ) (c : Nat),
        net.node_count = some c → w.length = c →
        (∀ nd ∈ net.nodes, nodeTerm net w nd = .ok (f nd)) →
        net.log_probability w = .ok ((net.nodes.map f).sum))
    ∧ net2.compile = .ok net2c
    ∧ net2c.log_probability exWorld2 = .ok (Real.log 0.9 + Real.log 0.3) := by
  refine ⟨?_, rfl, ?_⟩
  · intro net w f c hc hlen hterm
    simp only [BayesNet.log_probability, hc, if_pos hlen]
    rw [lpFold_sum net w f net.nodes 0 hterm, zero_add]
  · have h : net2c.log_probability exWorld2 =
        .ok (0 + Real.log 0.9 + Real.log 0.3) := rfl
    rw [h, zero_add]

/-- Witness for C2: the general summation statement applied to the
two-node example network and its complete world. -/
theorem claim2_log_probability_sum_witness :
    net2c.node_count = some 2
    ∧ exWorld2.length = 2
    ∧ (∀ nd ∈ net2c.nodes, nodeTerm net2c exWorld2 nd =
        .ok (if nd.index = 0 then Real.log 0.9 else Real.log 0.3))
    ∧ net2c.log_probability exWorld2 =
        .ok ((net2c.nodes.map
          (fun nd => if nd.index = 0 then Real.log 0.9 else Real.log 0.3)).sum) := by
  have hterm : ∀ nd ∈ net2c.nodes, nodeTerm net2c exWorld2 nd =
      .ok (if nd.index = 0 then Real.log 0.9 else Real.log 0.3) := by
    intro nd hnd
    rw [show net2c.nodes = [n2c0, n2c1] from rfl] at hnd
    rcases List.mem_cons.mp hnd with h | h
    · subst h; rfl
    · rcases List.mem_cons.mp h with h' | h'
      · subst h'; rfl
      · exact absurd h' (List.not_mem_nil nd)
  exact ⟨rfl, rfl, hterm,
    claim2_log_probability_sum.1 net2c exWorld2 _ 2 rfl rfl hterm⟩

theorem lpFold_error_of_failing_mem (net : BayesNet) (w : World) :
    ∀ (nds : List Node), (∃ nd ∈ nds, ∀ r, nodeTerm net w nd ≠ .ok r) →
      ∀ acc, ∃ e, lpFold net w nds acc = .error e := by
  intro nds
  induction nds with
  | nil => rintro ⟨nd, hmem, _⟩ acc; exact absurd hmem (List.not_mem_nil nd)
  | cons hd tl ih =>
    rintro ⟨nd, hmem, hfail⟩ acc
    cases hterm : nodeTerm net w hd with
    | error e => exact ⟨e, by simp [lpFold, hterm]⟩
    | ok t =>
      rcases List.mem_cons.mp hmem with h | h
      · subst h; exact absurd hterm (hfail t)
      · obtain ⟨e, he⟩ := ih ⟨nd, h, hfail⟩ (acc + t)
        exact ⟨e, by simp [lpFold, hterm, he]⟩

/-- C7: `log_probability` of a world lacking a value for some node of
the network fails rather than returning a partial sum: either the
length assertion fails, or the missing node's lookup raises. -/
theorem claim7_incomplete_world_fails :
    ∀ (net : BayesNet) (w : World),
      (∃ nd ∈ net.nodes, wLookup w nd.index = none) →
      ∃ e, net.log_probability w = .error e := by
  intro net w hmiss
  cases hc : net.node_count with
  | none => exact ⟨Err.assertionError, by simp [BayesNet.log_probability, hc]⟩
  | some c =>
    by_cases hlen : w.length = c
    · obtain ⟨nd, hmem, hnone⟩ := hmiss
      have hfail : ∀ r, nodeTerm net w nd ≠ .ok r := by
        intro r h
        rw [nodeTerm, hnone] at h
        exact absurd h (by simp)
      obtain ⟨e, he⟩ := lpFold_error_of_failing_mem net w net.nodes ⟨nd, hmem, hfail⟩ 0
      exact ⟨e, by simp [BayesNet.log_probability, hc, if_pos hlen, he]⟩
    · exact ⟨Err.assertionError, by simp [BayesNet.log_probability, hc, if_neg hlen]⟩

/-- Witness for C7: the world `{node0: 1}` misses `node1` of the
two-node example network, and scoring it fails. -/
theorem claim7_incomplete_world_fails_witness :
    (∃ nd ∈ net2c.nodes, wLookup [(0, Val.vnat 1)] nd.index = none)
    ∧ ∃ e, net2c.log_probability [(0, Val.vnat 1)] = .error e := by
  have hmiss : ∃ nd ∈ net2c.nodes, wLookup [(0, Val.vnat 1)] nd.index = none := by
    refine ⟨n2c1, ?_, rfl⟩
    rw [show net2c.nodes = [n2c0, n2c1] from rfl]
    exact List.mem_cons_of_mem _ (List.mem_cons_self _ _)
  exact ⟨hmiss, claim7_incomplete_world_fails net2c [(0, Val.vnat 1)] hmiss⟩

/-! ## C6: querying uncompiled nodes -/

def NodeKind.isTable : NodeKind → Bool
  | .table _ _ => true
  | _ => false

/-- An uncompiled discrete distribution node with no parents. -/
def node6 : Node :=
  { index := 0, kind := .dist 2 (fun _ => Val.vnat 0) (fun _ _ => (0 : ℝ)) }

def net6 : BayesNet := { nodes := [node6], edges := [] }

theorem parentValues_ok_of_lookups (w : World) :
    ∀ ps : List Nat, (∀ p ∈ ps, (wLookup w p).isSome) →
      ∃ vs, parentValues w ps = .ok vs := by
  intro ps
  induction ps with
  | nil => intro _; exact ⟨[], rfl⟩
  | cons p rest ih =>
    intro h
    have hp := h p (List.mem_cons_self p rest)
    cases hlook : wLookup w p with
    | none => rw [hlook] at hp; simp at hp
    | some v =>
      obtain ⟨vs, hvs⟩ := ih (fun q hq => h q (List.mem_cons_of_mem p hq))
      exact ⟨v :: vs, by simp [parentValues, hlook, hvs]⟩

/-- Counterexample to C6 as stated: an uncompiled distribution node
returns a sampled value instead of failing. -/
theorem claim6_counterexample :
    node6.compiled = false ∧ Node.sample net6 node6 [] 0 = .ok (Val.vnat 0, 0) :=
  ⟨rfl, rfl⟩

/-- C6 (amended): only table nodes check the compiled flag — querying
an uncompiled table node fails with the assertion error, while the
distribution-parameterized and deterministic variants answer queries on
an uncompiled node as long as the parent values are present. -/
theorem claim6_uncompiled_queries_amended :
    (∀ (net : BayesNet) (nd : Node) (w : World) (rng : Nat),
        nd.kind.isTable = true → nd.compiled = false →
        Node.sample net nd w rng = .error Err.assertionError
        ∧ ∀ v, Node.log_probability net nd w v = .error Err.assertionError)
    ∧ (∀ (net : BayesNet) (nd : Node) (w : World) (rng : Nat),
        nd.kind.isTable = false →
        (∀ p ∈ net.parentsOf nd.index, (wLookup w p).isSome) →
        (Node.sample net nd w rng).isOk = true
        ∧ ∀ v, (Node.log_probability net nd w v).isOk = true) := by
  constructor
  · intro net nd w rng htab hcomp
    cases hk : nd.kind with
    | table ds cpt =>
      constructor
      · simp [Node.sample, hk, hcomp]
      · intro v; simp [Node.log_probability, hk, hcomp]
    | dist ds sf lf => rw [hk] at htab; simp [NodeKind.isTable] at htab
    | distReal sf lf => rw [hk] at htab; simp [NodeKind.isTable] at htab
    | detReal f => rw [hk] at htab; simp [NodeKind.isTable] at htab
  · intro net nd w rng htab hpar
    obtain ⟨vs, hvs⟩ := parentValues_ok_of_lookups w (net.parentsOf nd.index) hpar
    cases hk : nd.kind with
    | table ds cpt => rw [hk] at htab; simp [NodeKind.isTable] at htab
    | dist ds sf lf =>
      exact ⟨by simp [Node.sample, hk, hvs, Except.isOk, Except.toBool],
        fun v => by simp [Node.log_probability, hk, hvs, Except.isOk, Except.toBool]⟩
    | distReal sf lf =>
      exact ⟨by simp [Node.sample, hk, hvs, Except.isOk, Except.toBool],
        fun v => by simp [Node.log_probability, hk, hvs, Except.isOk, Except.toBool]⟩
    | detReal f =>
      exact ⟨by simp [Node.sample, hk, hvs, Except.isOk, Except.toBool],
        fun v => by simp [Node.log_probability, hk, hvs, Except.isOk, Except.toBool]⟩

/-- Witness for the amended C6: the uncompiled table node `nodeA` fails
its queries, while the uncompiled distribution node `node6` answers
them. -/
theorem claim6_uncompiled_queries_amended_witness :
    (nodeA.kind.isTable = true ∧ nodeA.compiled = false
      ∧ Node.sample netABCD nodeA [] 0 = .error Err.assertionError)
    ∧ (node6.kind.isTable = false
      ∧ (Node.sample net6 node6 [] 0).isOk = true) := by
  refine ⟨⟨rfl, rfl, ?_⟩, rfl, ?_⟩
  · exact (claim6_uncompiled_queries_amended.1 netABCD nodeA [] 0 rfl rfl).1
  · exact (claim6_uncompiled_queries_amended.2 net6 node6 [] 0 rfl
      (by intro p hp; simp [BayesNet.parentsOf, BayesNet.predecessors, net6] at hp)).1

/-! ## C10: in-place sampling -/

/-- C10: with `mutate_world=True` and a non-empty seed, `sample`
returns the caller's own object, now containing the sampled values;
with an empty seed it creates a fresh assignment, leaving the caller's
empty world unchanged even though mutation was requested. -/
theorem claim10_mutate_world :
    (∀ (net : BayesNet) (w : World) (rng : Nat) (res caller : World) (al : Bool)
        (rng' : Nat), w ≠ [] →
        net.sample (some w) true rng = .ok (res, caller, al, rng') →
        caller = res ∧ al = true)
    ∧ (∀ (net : BayesNet) (rng : Nat) (res caller : World) (al : Bool) (rng' : Nat),
        net.sample (some []) true rng = .ok (res, caller, al, rng') →
        caller = [] ∧ al = false) := by
  constructor
  · intro net w rng res caller al rng' hw hok
    have hemp : w.isEmpty = false := by
      cases w with
      | nil => exact absurd rfl hw
      | cons a l => rfl
    rw [BayesNet.sample] at hok
    cases htopo : net.nodes_by_topology with
    | none => rw [htopo] at hok; exact absurd hok (by simp)
    | some topo =>
      rw [htopo] at hok
      simp only [Option.getD_some, hemp, Bool.false_eq_true, if_false, if_true] at hok
      cases hloop : sampleLoop net topo w rng with
      | error e => rw [hloop] at hok; exact absurd hok (by simp)
      | ok p =>
        rw [hloop] at hok
        obtain ⟨res0, rng0⟩ := p
        simp only [Except.ok.injEq, Prod.mk.injEq] at hok
        obtain ⟨h1, h2, h3, _⟩ := hok
        exact ⟨h2.symm.trans h1, h3.symm⟩
  · intro net rng res caller al rng' hok
    rw [BayesNet.sample] at hok
    cases htopo : net.nodes_by_topology with
    | none => rw [htopo] at hok; exact absurd hok (by simp)
    | some topo =>
      rw [htopo] at hok
      simp only [Option.getD_some, List.isEmpty_nil, if_true] at hok
      cases hloop : sampleLoop net topo [] rng with
      | error e => rw [hloop] at hok; exact absurd hok (by simp)
      | ok p =>
        rw [hloop] at hok
        obtain ⟨res0, rng0⟩ := p
        simp only [Except.ok.injEq, Prod.mk.injEq] at hok
        obtain ⟨_, h2, h3, _⟩ := hok
        exact ⟨h2.symm, h3.symm⟩

/-- Witness for C10: a concrete run on the compiled two-node network,
with a non-empty seed (mutated in place) and with an empty seed (fresh
result). -/
theorem claim10_mutate_world_witness :
    ([((0 : Nat), Val.vnat 1)] ≠ ([] : World))
    ∧ net2c.sample (some [(0, Val.vnat 1)]) true 0 =
        .ok ([(0, Val.vnat 1), (1, Val.vnat 0)], [(0, Val.vnat 1), (1, Val.vnat 0)],
          true, 1)
    ∧ ([(0, Val.vnat 1), (1, Val.vnat 0)] : World) = [(0, Val.vnat 1), (1, Val.vnat 0)]
      ∧ true = true
    ∧ net2c.sample (some []) true 0 =
        .ok ([(0, Val.vnat 0), (1, Val.vnat 1)], [], false, 2)
    ∧ ([] : World) = [] ∧ false = false := by
  have h1 := claim10_mutate_world.1 net2c [(0, Val.vnat 1)] 0
    [(0, Val.vnat 1), (1, Val.vnat 0)] [(0, Val.vnat 1), (1, Val.vnat 0)] true 1
    (by simp) rfl
  have h2 := claim10_mutate_world.2 net2c 0
    [(0, Val.vnat 0), (1, Val.vnat 1)] [] false 2 rfl
  exact ⟨by simp, rfl, h1.1, h1.2, rfl, h2.1, h2.2⟩

/-! ## C4: compile is idempotent -/

/-- The immutable part of a node: its identity and variant data.
Everything `compile` computes is a function of the statics of the net's
nodes and the edge relation. -/
def Node.static (nd : Node) : Nat × NodeKind := (nd.index, nd.kind)

theorem map_index_of_map_static {l1 l2 : List Node}
    (h : l1.map Node.static = l2.map Node.static) :
    l1.map (·.index) = l2.map (·.index) := by
  have h1 : l1.map (·.index) = (l1.map Node.static).map Prod.fst := by
    rw [List.map_map]; rfl
  have h2 : l2.map (·.index) = (l2.map Node.static).map Prod.fst := by
    rw [List.map_map]; rfl
  rw [h1, h2, h]

theorem node_compile_static {ctx : BayesNet} {nd nd' : Node}
    (h : Node.compile ctx nd = .ok nd') :
    nd'.index = nd.index ∧ nd'.kind = nd.kind ∧ nd'.compiled = true := by
  obtain ⟨idx, kind, comp, mb0, pm0, d0⟩ := nd
  cases kind with
  | table d cpt =>
    simp only [Node.compile] at h
    split at h
    · exact absurd h (by simp)
    · split at h
      · exact absurd h (by simp)
      · simp only [Except.ok.injEq] at h
        subst h
        exact ⟨rfl, rfl, rfl⟩
  | dist d sf lf =>
    simp only [Node.compile, Except.ok.injEq] at h
    subst h
    exact ⟨rfl, rfl, rfl⟩
  | distReal sf lf =>
    simp only [Node.compile, Except.ok.injEq] at h
    subst h
    exact ⟨rfl, rfl, rfl⟩
  | detReal f =>
    simp only [Node.compile, Except.ok.injEq] at h
    subst h
    exact ⟨rfl, rfl, rfl⟩

theorem find?_replace_self :
    ∀ (nodes : List Node) (i : Nat) (nd' : Node), nd'.index = i →
      (nodes.find? (fun m => m.index == i)).isSome →
      (nodes.map (fun m => if m.index == i then nd' else m)).find?
        (fun m => m.index == i) = some nd' := by
  intro nodes
  induction nodes with
  | nil => intro i nd' _ hf; simp [List.find?] at hf
  | cons m rest ih =>
    intro i nd' hidx hf
    by_cases hm : m.index = i
    · have hb : (m.index == i) = true := beq_iff_eq.mpr hm
      simp only [List.map_cons, hb, if_true]
      simp [List.find?_cons, hidx]
    · have hb : (m.index == i) = false := beq_eq_false_iff_ne.mpr hm
      simp only [List.map_cons, hb, Bool.false_eq_true, if_false]
      simp only [List.find?_cons, hb] at hf ⊢
      exact ih i nd' hidx hf

theorem find?_replace_ne :
    ∀ (nodes : List Node) (i j : Nat) (nd' : Node), j ≠ i → nd'.index = j →
      (nodes.map (fun m => if m.index == j then nd' else m)).find?
        (fun m => m.index == i) = nodes.find? (fun m => m.index == i) := by
  intro nodes
  induction nodes with
  | nil => intro i j nd' _ _; rfl
  | cons m rest ih =>
    intro i j nd' hne hidx
    by_cases hm : m.index = j
    · have hb : (m.index == j) = true := beq_iff_eq.mpr hm
      simp only [List.map_cons, hb, if_true]
      have h1 : (nd'.index == i) = false := by
        rw [hidx]; exact beq_eq_false_iff_ne.mpr hne
      have h2 : (m.index == i) = false := by
        rw [hm]; exact beq_eq_false_iff_ne.mpr hne
      simp only [List.find?_cons, h1, h2]
      exact ih i j nd' hne hidx
    · have hb : (m.index == j) = false := beq_eq_false_iff_ne.mpr hm
      simp only [List.map_cons, hb, Bool.false_eq_true, if_false]
      by_cases hmi : m.index = i
      · simp only [List.find?_cons, beq_iff_eq.mpr hmi]
      · simp only [List.find?_cons, beq_eq_false_iff_ne.mpr hmi]
        exact ih i j nd' hne hidx

theorem map_replace_static :
    ∀ (nodes : List Node) (i : Nat) (nd0 nd' : Node),
      nodes.find? (fun m => m.index == i) = some nd0 →
      nd'.static = nd0.static →
      (nodes.map (·.index)).Nodup →
      (nodes.map (fun m => if m.index == i then nd' else m)).map Node.static
        = nodes.map Node.static := by
  intro nodes
  induction nodes with
  | nil => intro i nd0 nd' hf _ _; simp [List.find?] at hf
  | cons m rest ih =>
    intro i nd0 nd' hf hst hnd
    simp only [List.map_cons, List.nodup_cons] at hnd
    by_cases hm : m.index = i
    · have hb : (m.index == i) = true := beq_iff_eq.mpr hm
      simp only [List.find?_cons, hb] at hf
      have hm0 : nd0 = m := by simpa using hf.symm
      subst hm0
      simp only [List.map_cons, hb, if_true, hst]
      congr 1
      have hrest : rest.map (fun m => if m.index == i then nd' else m) = rest := by
        apply List.map_congr_left ?_ |>.trans (List.map_id rest)
        intro x hx
        have : x.index ≠ i := by
          intro hxi
          exact hnd.1 (hm ▸ hxi ▸ List.mem_map_of_mem (·.index) hx)
        simp [beq_eq_false_iff_ne.mpr this]
      rw [hrest]
    · have hb : (m.index == i) = false := beq_eq_false_iff_ne.mpr hm
      simp only [List.find?_cons, hb] at hf
      simp only [List.map_cons, hb, Bool.false_eq_true, if_false]
      rw [ih i nd0 nd' hf hst hnd.2]

theorem find?_index_static_congr :
    ∀ {l1 l2 : List Node}, l1.map Node.static = l2.map Node.static → ∀ p,
      (l1.find? (fun nd => nd.index == p)).map Node.static
        = (l2.find? (fun nd => nd.index == p)).map Node.static := by
  intro l1
  induction l1 with
  | nil =>
    intro l2 h p
    rw [List.eq_nil_of_map_eq_nil h.symm]
  | cons a l ih =>
    intro l2 h p
    cases l2 with
    | nil => simp at h
    | cons b l2' =>
      simp only [List.map_cons, List.cons.injEq] at h
      obtain ⟨hab, hl⟩ := h
      have hidx : a.index = b.index := congrArg Prod.fst hab
      by_cases hp : a.index = p
      · simp only [List.find?_cons, beq_iff_eq.mpr hp,
          beq_iff_eq.mpr (hidx ▸ hp : b.index = p)]
        simpa using hab
      · simp only [List.find?_cons, beq_eq_false_iff_ne.mpr hp,
          beq_eq_false_iff_ne.mpr (hidx ▸ hp : ¬b.index = p)]
        exact ih hl p

theorem domainSize?_of_static {n1 n2 : Node} (h : n1.static = n2.static) :
    n1.domainSize? = n2.domainSize? := by
  have hk : n1.kind = n2.kind := congrArg Prod.snd h
  rw [Node.domainSize?, Node.domainSize?, hk]

theorem support?_of_static {n1 n2 : Node} (h : n1.static = n2.static) :
    n1.support? = n2.support? := by
  have hk : n1.kind = n2.kind := congrArg Prod.snd h
  rw [Node.support?, Node.support?, hk]

theorem findNode_bind_congr {c1 c2 : BayesNet}
    (h : c1.nodes.map Node.static = c2.nodes.map Node.static)
    {β : Type} (f : Node → Option β)
    (hf : ∀ n1 n2 : Node, n1.static = n2.static → f n1 = f n2) (p : Nat) :
    (c1.findNode p).bind f = (c2.findNode p).bind f := by
  have hfind := find?_index_static_congr h p
  rw [BayesNet.findNode, BayesNet.findNode]
  cases h1 : c1.nodes.find? (fun nd => nd.index == p) with
  | none =>
    cases h2 : c2.nodes.find? (fun nd => nd.index == p) with
    | none => rfl
    | some n2 => rw [h1, h2] at hfind; simp at hfind
  | some n1 =>
    cases h2 : c2.nodes.find? (fun nd => nd.index == p) with
    | none => rw [h1, h2] at hfind; simp at hfind
    | some n2 =>
      rw [h1, h2] at hfind
      simp only [Option.map_some', Option.some.injEq] at hfind
      show f n1 = f n2
      exact hf n1 n2 hfind

theorem parentSizes_congr {c1 c2 : BayesNet}
    (h : c1.nodes.map Node.static = c2.nodes.map Node.static) :
    ∀ ps, parentSizes c1 ps = parentSizes c2 ps := by
  intro ps
  induction ps with
  | nil => rfl
  | cons p rest ih =>
    simp only [parentSizes]
    rw [findNode_bind_congr h Node.domainSize? (fun _ _ => domainSize?_of_static) p, ih]

theorem parentSupports_congr {c1 c2 : BayesNet}
    (h : c1.nodes.map Node.static = c2.nodes.map Node.static) :
    ∀ ps, parentSupports c1 ps = parentSupports c2 ps := by
  intro ps
  induction ps with
  | nil => rfl
  | cons p rest ih =>
    simp only [parentSupports]
    rw [findNode_bind_congr h Node.support? (fun _ _ => support?_of_static) p, ih]

theorem parentsOf_congr {c1 c2 : BayesNet} (he : c1.edges = c2.edges)
    (hi : c1.indices = c2.indices) : ∀ i, c1.parentsOf i = c2.parentsOf i := by
  intro i
  rw [BayesNet.parentsOf, BayesNet.parentsOf, BayesNet.predecessors,
    BayesNet.predecessors, he, hi]

theorem childrenOf_congr {c1 c2 : BayesNet} (he : c1.edges = c2.edges)
    (hi : c1.indices = c2.indices) : ∀ i, c1.childrenOf i = c2.childrenOf i := by
  intro i
  rw [BayesNet.childrenOf, BayesNet.childrenOf, BayesNet.successors,
    BayesNet.successors, he, hi]

theorem markov_blanket_congr {c1 c2 : BayesNet} (he : c1.edges = c2.edges)
    (hi : c1.indices = c2.indices) :
    ∀ i, c1.compute_markov_blanket i = c2.compute_markov_blanket i := by
  intro i
  simp only [BayesNet.compute_markov_blanket, parentsOf_congr he hi,
    childrenOf_congr he hi]

theorem node_compile_congr {c1 c2 : BayesNet} (he : c1.edges = c2.edges)
    (h : c1.nodes.map Node.static = c2.nodes.map Node.static) (nd : Node) :
    Node.compile c1 nd = Node.compile c2 nd := by
  have hi : c1.indices = c2.indices := by
    rw [BayesNet.indices, BayesNet.indices]
    exact map_index_of_map_static h
  have hmul : ∀ i, compute_parent_multipliers_at c1 i = compute_parent_multipliers_at c2 i := by
    intro i
    rw [compute_parent_multipliers_at, compute_parent_multipliers_at,
      parentsOf_congr he hi, parentSizes_congr h]
  have hdist : ∀ i k mult, compute_distributions_at c1 i k mult
      = compute_distributions_at c2 i k mult := by
    intro i k mult
    cases k with
    | table d cpt =>
      simp only [compute_distributions_at, parentsOf_congr he hi, parentSupports_congr h]
    | dist d sf lf => rfl
    | distReal sf lf => rfl
    | detReal f => rfl
  obtain ⟨idx, kind, comp, mb0, pm0, d0⟩ := nd
  cases kind with
  | table d cpt =>
    simp only [Node.compile, hmul, hdist, markov_blanket_congr he hi]
  | dist d sf lf => simp only [Node.compile, markov_blanket_congr he hi]
  | distReal sf lf => simp only [Node.compile, markov_blanket_congr he hi]
  | detReal f => simp only [Node.compile, markov_blanket_congr he hi]

theorem node_compile_idem {ctx : BayesNet} {nd nd' : Node}
    (h : Node.compile ctx nd = .ok nd') : Node.compile ctx nd' = .ok nd' := by
  obtain ⟨idx, kind, comp, mb0, pm0, d0⟩ := nd
  cases kind with
  | table d cpt =>
    simp only [Node.compile] at h
    split at h
    · exact absurd h (by simp)
    next mult hm =>
      split at h
      · exact absurd h (by simp)
      next dists hd =>
        simp only [Except.ok.injEq] at h
        subst h
        simp only [Node.compile, hm, hd]
  | dist d sf lf =>
    simp only [Node.compile, Except.ok.injEq] at h
    subst h
    simp only [Node.compile]
  | distReal sf lf =>
    simp only [Node.compile, Except.ok.injEq] at h
    subst h
    simp only [Node.compile]
  | detReal f =>
    simp only [Node.compile, Except.ok.injEq] at h
    subst h
    simp only [Node.compile]

theorem map_replace_id :
    ∀ (nodes : List Node) (i : Nat) (nd' : Node),
      nodes.find? (fun m => m.index == i) = some nd' →
      (nodes.map (·.index)).Nodup →
      nodes.map (fun m => if m.index == i then nd' else m) = nodes := by
  intro nodes
  induction nodes with
  | nil => intro i nd' hf _; simp [List.find?] at hf
  | cons m rest ih =>
    intro i nd' hf hnd
    simp only [List.map_cons, List.nodup_cons] at hnd
    by_cases hm : m.index = i
    · have hb : (m.index == i) = true := beq_iff_eq.mpr hm
      simp only [List.find?_cons, hb] at hf
      have hm0 : nd' = m := by simpa using hf.symm
      subst hm0
      simp only [List.map_cons, hb, if_true]
      congr 1
      apply List.map_congr_left ?_ |>.trans (List.map_id rest)
      intro x hx
      have : x.index ≠ i := by
        intro hxi
        exact hnd.1 (hm ▸ hxi ▸ List.mem_map_of_mem (·.index) hx)
      simp [beq_eq_false_iff_ne.mpr this]
    · have hb : (m.index == i) = false := beq_eq_false_iff_ne.mpr hm
      simp only [List.find?_cons, hb] at hf
      simp only [List.map_cons, hb, Bool.false_eq_true, if_false]
      rw [ih i nd' hf hnd.2]

theorem compileStep_inv {ctx : BayesNet} {nodes : List Node} {i : Nat}
    {nodes₁ : List Node} (h : compileStep ctx nodes i = .ok nodes₁) :
    ∃ nd0 nd1, nodes.find? (fun m => m.index == i) = some nd0
      ∧ Node.compile ctx nd0 = .ok nd1
      ∧ nodes₁ = nodes.map (fun m => if m.index == i then nd1 else m) := by
  rw [compileStep] at h
  split at h
  · exact absurd h (by simp)
  next nd0 hf =>
    split at h
    · exact absurd h (by simp)
    next nd1 hc =>
      simp only [Except.ok.injEq] at h
      exact ⟨nd0, nd1, hf, hc, h.symm⟩

theorem compileFold_untouched (ctx : BayesNet) :
    ∀ (topo : List Nat) (nodes nodesF : List Node),
      compileFold ctx topo nodes = .ok nodesF →
      ∀ j, j ∉ topo →
        nodesF.find? (fun m => m.index == j) = nodes.find? (fun m => m.index == j) := by
  intro topo
  induction topo with
  | nil =>
    intro nodes nodesF h j _
    simp only [compileFold, Except.ok.injEq] at h
    rw [h]
  | cons i rest ih =>
    intro nodes nodesF h j hj
    simp only [compileFold] at h
    split at h
    · exact absurd h (by simp)
    next nodes₁ hstep =>
      obtain ⟨nd0, nd1, hf, hc, hrepl⟩ := compileStep_inv hstep
      have hne : i ≠ j := fun hij => hj (hij ▸ List.mem_cons_self i rest)
      have hp := @List.find?_some Node (fun m => m.index == i) nd0 nodes hf
      have hnd1i : nd1.index = i :=
        (node_compile_static hc).1.trans (beq_iff_eq.mp hp)
      have h1 : nodes₁.find? (fun m => m.index == j)
          = nodes.find? (fun m => m.index == j) := by
        rw [hrepl]
        exact find?_replace_ne nodes j i nd1 hne hnd1i
      rw [ih nodes₁ nodesF h j (fun hjr => hj (List.mem_cons_of_mem i hjr)), h1]

theorem compileFold_post (ctx : BayesNet) :
    ∀ (topo : List Nat) (nodes nodesF : List Node),
      (nodes.map (·.index)).Nodup →
      compileFold ctx topo nodes = .ok nodesF →
      nodesF.map Node.static = nodes.map Node.static
      ∧ ∀ i ∈ topo, ∃ nd', nodesF.find? (fun m => m.index == i) = some nd'
          ∧ Node.compile ctx nd' = .ok nd' := by
  intro topo
  induction topo with
  | nil =>
    intro nodes nodesF _ h
    simp only [compileFold, Except.ok.injEq] at h
    subst h
    exact ⟨rfl, by simp⟩
  | cons i rest ih =>
    intro nodes nodesF hnd h
    simp only [compileFold] at h
    split at h
    · exact absurd h (by simp)
    next nodes₁ hstep =>
      obtain ⟨nd0, nd1, hf, hc, hrepl⟩ := compileStep_inv hstep
      have hst1 : nd1.static = nd0.static := by
        obtain ⟨h1, h2, _⟩ := node_compile_static hc
        rw [Node.static, Node.static, h1, h2]
      have hstat1 : nodes₁.map Node.static = nodes.map Node.static := by
        rw [hrepl]
        exact map_replace_static nodes i nd0 nd1 hf hst1 hnd
      have hnd1 : (nodes₁.map (·.index)).Nodup := by
        rw [map_index_of_map_static hstat1]
        exact hnd
      obtain ⟨hstatF, hrest⟩ := ih nodes₁ nodesF hnd1 h
      refine ⟨hstatF.trans hstat1, ?_⟩
      intro j hj
      rcases List.mem_cons.mp hj with rfl | hjr
      · by_cases hir : j ∈ rest
        · exact hrest j hir
        · have hp := @List.find?_some Node (fun m => m.index == j) nd0 nodes hf
          have hnd0i : nd0.index = j := beq_iff_eq.mp hp
          have hnd1i : nd1.index = j := (node_compile_static hc).1.trans hnd0i
          have hfind1 : nodes₁.find? (fun m => m.index == j) = some nd1 := by
            rw [hrepl]
            apply find?_replace_self nodes j nd1 hnd1i
            rw [hf]
            rfl
          refine ⟨nd1, ?_, node_compile_idem hc⟩
          rw [compileFold_untouched ctx rest nodes₁ nodesF h j hir, hfind1]
      · exact hrest j hjr

theorem compileFold_fixed (ctx : BayesNet) :
    ∀ (topo : List Nat) (nodes : List Node),
      (nodes.map (·.index)).Nodup →
      (∀ i ∈ topo, ∃ nd', nodes.find? (fun m => m.index == i) = some nd'
        ∧ Node.compile ctx nd' = .ok nd') →
      compileFold ctx topo nodes = .ok nodes := by
  intro topo
  induction topo with
  | nil => intro nodes _ _; rfl
  | cons i rest ih =>
    intro nodes hnd hfix
    obtain ⟨nd', hf, hc⟩ := hfix i (List.mem_cons_self i rest)
    have hstep : compileStep ctx nodes i = .ok nodes := by
      simp only [compileStep, hf, hc]
      rw [map_replace_id nodes i nd' hf hnd]
    simp only [compileFold, hstep]
    exact ih nodes hnd (fun j hj => hfix j (List.mem_cons_of_mem i hj))

theorem compile_inv {net net' : BayesNet} (h : net.compile = .ok net') :
    ∃ topo lastN nodesF,
      net.topoOrErr = .ok topo
      ∧ (sortByIndex net.nodes).getLast? = some lastN
      ∧ (sortByIndex net.nodes).map (·.index) = List.range (lastN.index + 1)
      ∧ compileFold { net with nodes := sortByIndex net.nodes } topo
          (sortByIndex net.nodes) = .ok nodesF
      ∧ net' = { net with
                 nodes := nodesF,
                 nodes_by_topology := some topo,
                 node_count := some (sortByIndex net.nodes).length,
                 compiled := true } := by
  rw [BayesNet.compile] at h
  split at h
  · exact absurd h (by simp)
  next topo htopo =>
    split at h
    · exact absurd h (by simp)
    next lastN hlast =>
      split at h
      next hcond =>
        split at h
        · exact absurd h (by simp)
        next nodesF hfold =>
          simp only [Except.ok.injEq] at h
          exact ⟨topo, lastN, nodesF, htopo, hlast, hcond, hfold, h.symm⟩
      next hcond => exact absurd h (by simp)

/-- C4: compiling an already-compiled network a second time succeeds
and returns the very same compiled network — the topological order,
every node's Markov blanket, and every table node's multiplier vector
and distribution cache are unchanged. -/
theorem claim4_compile_idempotent :
    ∀ (net net' : BayesNet), net.compile = .ok net' → net'.compile = .ok net' := by
  intro net net' h
  obtain ⟨topo, lastN, nodesF, htopo, hlast, hrange, hfold, hnet'⟩ := compile_inv h
  have hnd : ((sortByIndex net.nodes).map (·.index)).Nodup := by
    rw [hrange]; exact List.nodup_range _
  obtain ⟨hstat, hfix⟩ := compileFold_post _ topo _ nodesF hnd hfold
  have hidxF : nodesF.map (·.index) = (sortByIndex net.nodes).map (·.index) :=
    map_index_of_map_static hstat
  have hndF : (nodesF.map (·.index)).Nodup := by rw [hidxF]; exact hnd
  have hsorted : List.Sorted (fun a b : Node => a.index ≤ b.index) nodesF := by
    have hp : List.Pairwise (· ≤ ·) (nodesF.map (·.index)) := by
      rw [hidxF, hrange]; exact List.pairwise_le_range _
    exact List.pairwise_map.mp hp
  have hsortEq : sortByIndex nodesF = nodesF :=
    List.Sorted.insertionSort_eq hsorted
  have hlastF : nodesF.getLast?.map (·.index) = some lastN.index := by
    have h1 : (nodesF.map (·.index)).getLast?
        = ((sortByIndex net.nodes).map (·.index)).getLast? := by rw [hidxF]
    rw [List.getLast?_map, List.getLast?_map, hlast] at h1
    simpa using h1
  have hlen : nodesF.length = (sortByIndex net.nodes).length := by
    have := congrArg List.length hidxF
    simpa using this
  cases hlf : nodesF.getLast? with
  | none => rw [hlf] at hlastF; simp at hlastF
  | some lastF =>
    rw [hlf] at hlastF
    have hlidx : lastF.index = lastN.index := by simpa using hlastF
    have hcond : nodesF.map (·.index) = List.range (lastF.index + 1) := by
      rw [hlidx, hidxF, hrange]
    have hfold2 : compileFold
        ⟨nodesF, net.edges, some topo, some (sortByIndex net.nodes).length, true⟩
        topo nodesF = .ok nodesF := by
      apply compileFold_fixed _ topo nodesF hndF
      intro i hi
      obtain ⟨nd', hfnd, hcomp⟩ := hfix i hi
      refine ⟨nd', hfnd, ?_⟩
      exact (@node_compile_congr { net with nodes := sortByIndex net.nodes }
        ⟨nodesF, net.edges, some topo, some (sortByIndex net.nodes).length, true⟩
        rfl hstat.symm nd').symm.trans hcomp
    obtain ⟨nn, ne, nt, nc, ncomp⟩ := net'
    simp only [BayesNet.mk.injEq] at hnet'
    obtain ⟨h1, h2, h3, h4, h5⟩ := hnet'
    subst h1; subst h2; subst h3; subst h4; subst h5
    simp only [BayesNet.compile, BayesNet.topoOrErr, hsortEq, hlf, hcond, if_pos,
      eq_self_iff_true, if_true, hfold2, hlen]

/-- Witness for C4: recompiling the compiled two-node example network
returns it unchanged. -/
theorem claim4_compile_idempotent_witness :
    net2.compile = .ok net2c ∧ net2c.compile = .ok net2c :=
  ⟨rfl, claim4_compile_idempotent net2 net2c rfl⟩

/-! ## C5: sampling -/

theorem wContains_eq_isSome (w : World) (k : Nat) :
    wContains w k = (wLookup w k).isSome := by
  rw [wContains, wLookup]
  cases w.find? (fun p => p.1 == k) <;> rfl

theorem wLookup_append_of_some {w : World} {k : Nat} {v : Val} (l : World)
    (h : wLookup w k = some v) : wLookup (w ++ l) k = some v := by
  rw [wLookup, List.find?_append]
  rw [wLookup] at h
  cases hf : w.find? (fun p => p.1 == k) with
  | none => rw [hf] at h; simp at h
  | some p => rw [hf] at h; simpa using h

theorem wLookup_append_single_self {w : World} {i : Nat} (v : Val)
    (h : wLookup w i = none) : wLookup (w ++ [(i, v)]) i = some v := by
  rw [wLookup, List.find?_append]
  rw [wLookup] at h
  cases hf : w.find? (fun p => p.1 == i) with
  | none => simp [List.find?]
  | some p => rw [hf] at h; simp at h

theorem wInsert_of_not_contains {w : World} {i : Nat} (v : Val)
    (h : wContains w i = false) : wInsert w i v = w ++ [(i, v)] := by
  rw [wInsert, h]
  simp

/-- The natural number stored in the world at key `p` (0 as fallback);
a proof device for naming the parent values. -/
def natValAt (w : World) (p : Nat) : Nat :=
  match wLookup w p with
  | some (Val.vnat m) => m
  | _ => 0

/-- A successful Kahn run returns a permutation of the remaining set. -/
theorem kahnAux_perm (edges : List (Nat × Nat)) :
    ∀ (fuel : Nat) (remaining l : List Nat),
      kahnAux edges fuel remaining = some l → l.Perm remaining := by
  intro fuel
  induction fuel with
  | zero =>
    intro remaining l h
    simp only [kahnAux] at h
    split at h
    · next hemp =>
      simp only [Option.some.injEq] at h
      subst h
      rw [List.isEmpty_iff.mp hemp]
    · exact absurd h (by simp)
  | succ fuel ih =>
    intro remaining l h
    simp only [kahnAux] at h
    split at h
    · next hemp =>
      simp only [Option.some.injEq] at h
      subst h
      rw [List.isEmpty_iff.mp hemp]
    · next hemp =>
      split at h
      · exact absurd h (by simp)
      next v hfind =>
        cases hrec : kahnAux edges fuel (remaining.erase v) with
        | none => rw [hrec] at h; simp at h
        | some l' =>
          rw [hrec] at h
          simp only [Option.map_some', Option.some.injEq] at h
          subst h
          have hperm := ih (remaining.erase v) l' hrec
          have hv : v ∈ remaining := List.mem_of_find?_eq_some hfind
          exact (hperm.cons v).trans (List.perm_cons_erase hv).symm

/-- In a successful Kahn run, the source of every edge whose source is
still remaining comes before the edge's target in the output order. -/
theorem kahnAux_edge_before (edges : List (Nat × Nat)) :
    ∀ (fuel : Nat) (remaining l : List Nat),
      kahnAux edges fuel remaining = some l →
      ∀ u v, (u, v) ∈ edges → u ∈ remaining →
        ∀ xs ys, l = xs ++ v :: ys → u ∈ xs := by
  intro fuel
  induction fuel with
  | zero =>
    intro remaining l h u v _ _ xs ys hsplit
    simp only [kahnAux] at h
    split at h
    · simp only [Option.some.injEq] at h
      subst h
      exact absurd hsplit.symm (by simp)
    · exact absurd h (by simp)
  | succ fuel ih =>
    intro remaining l h u v hedge hu xs ys hsplit
    simp only [kahnAux] at h
    split at h
    · simp only [Option.some.injEq] at h
      subst h
      exact absurd hsplit.symm (by simp)
    · next hemp =>
      split at h
      · exact absurd h (by simp)
      next v0 hfind =>
        cases hrec : kahnAux edges fuel (remaining.erase v0) with
        | none => rw [hrec] at h; simp at h
        | some l' =>
          rw [hrec] at h
          simp only [Option.map_some', Option.some.injEq] at h
          subst h
          cases xs with
          | nil =>
            simp only [List.nil_append, List.cons.injEq] at hsplit
            obtain ⟨hv0, _⟩ := hsplit
            subst hv0
            exfalso
            have hni := @List.find?_some Nat (noIncoming edges remaining) v0
              remaining hfind
            have hany : remaining.any (fun u' => edges.contains (u', v0)) = true := by
              rw [List.any_eq_true]
              exact ⟨u, hu, List.elem_iff.mpr hedge⟩
            rw [noIncoming, hany] at hni
            simp at hni
          | cons x xs' =>
            simp only [List.cons_append, List.cons.injEq] at hsplit
            obtain ⟨hx, hsplit'⟩ := hsplit
            subst hx
            by_cases huv : u = v0
            · exact huv ▸ List.mem_cons_self v0 xs'
            · have hu' : u ∈ remaining.erase v0 :=
                (List.mem_erase_of_ne huv).mpr hu
              exact List.mem_cons_of_mem v0
                (ih (remaining.erase v0) l' hrec u v hedge hu' xs' ys hsplit')

theorem parentSizes_spec (net : BayesNet) :
    ∀ (ps sizes : List Nat), parentSizes net ps = .ok sizes →
      sizes.length = ps.length
      ∧ ∀ j, j < ps.length →
          (net.findNode (ps.getD j 0)).bind Node.domainSize? = some (sizes.getD j 0) := by
  intro ps
  induction ps with
  | nil =>
    intro sizes h
    simp only [parentSizes, Except.ok.injEq] at h
    subst h
    exact ⟨rfl, by intro j hj; simp at hj⟩
  | cons p rest ih =>
    intro sizes h
    simp only [parentSizes] at h
    split at h
    · exact absurd h (by simp)
    next d hd =>
      split at h
      · exact absurd h (by simp)
      next ds' hrest =>
        simp only [Except.ok.injEq] at h
        subst h
        obtain ⟨hlen, hspec⟩ := ih ds' hrest
        refine ⟨by simp [hlen], ?_⟩
        intro j hj
        cases j with
        | zero => simpa using hd
        | succ j =>
          simp only [List.getD_cons_succ]
          exact hspec j (by simpa using hj)

theorem parentSupports_of_sizes (net : BayesNet) :
    ∀ (ps sizes : List Nat), parentSizes net ps = .ok sizes →
      parentSupports net ps = .ok (sizes.map List.range) := by
  intro ps
  induction ps with
  | nil =>
    intro sizes h
    simp only [parentSizes, Except.ok.injEq] at h
    subst h
    rfl
  | cons p rest ih =>
    intro sizes h
    simp only [parentSizes] at h
    split at h
    · exact absurd h (by simp)
    next d hd =>
      split at h
      · exact absurd h (by simp)
      next ds' hrest =>
        simp only [Except.ok.injEq] at h
        subst h
        have hsupp : (net.findNode p).bind Node.support? = some (List.range d) := by
          cases hfn : net.findNode p with
          | none => rw [hfn] at hd; simp at hd
          | some nd =>
            rw [hfn] at hd
            have hd' : Node.domainSize? nd = some d := hd
            show Node.support? nd = some (List.range d)
            rw [Node.support?, NodeKind.support?, ← Node.domainSize?, hd']
            rfl
        simp only [parentSupports, hsupp, ih ds' hrest, List.map_cons]

theorem cdLoop_facts (parents mult support : List Nat) (ds : Nat) (cpt : List ℝ) :
    ∀ (tuples : List (List Nat)) (i j0 : Nat)
      (dists : List CategoricalDistribution) (jf : Nat),
      cdLoop parents mult support ds cpt tuples i j0 = .ok (dists, jf) →
      dists.length = tuples.length ∧ ∀ d ∈ dists, d.values = support := by
  intro tuples
  induction tuples with
  | nil =>
    intro i j0 dists jf h
    simp only [cdLoop, Except.ok.injEq, Prod.mk.injEq] at h
    obtain ⟨h1, _⟩ := h
    subst h1
    exact ⟨rfl, by simp⟩
  | cons t rest ih =>
    intro i j0 dists jf h
    simp only [cdLoop] at h
    split at h
    · exact absurd h (by simp)
    · split at h
      · split at h
        · exact absurd h (by simp)
        next dists' jf' hrec =>
          simp only [Except.ok.injEq, Prod.mk.injEq] at h
          obtain ⟨h1, _⟩ := h
          subst h1
          obtain ⟨hlen, hvals⟩ := ih (i + 1) (i * ds) dists' jf' hrec
          refine ⟨by simp [hlen], ?_⟩
          intro d hd
          rcases List.mem_cons.mp hd with rfl | hd'
          · rfl
          · exact hvals d hd'
      · exact absurd h (by simp)

theorem node_compile_table_facts {net : BayesNet} {nd : Node} {ds : Nat}
    {cpt : List ℝ} (hk : nd.kind = .table ds cpt)
    (h : Node.compile net nd = .ok nd) :
    nd.compiled = true
    ∧ nd.domainSize? = some ds
    ∧ ∃ sizes dists,
        parentSizes net (net.parentsOf nd.index) = .ok sizes
        ∧ nd.parent_multiplier = some (compute_parent_multipliers sizes)
        ∧ nd.distributions = some dists
        ∧ dists.length = sizes.prod
        ∧ ds ≠ 0
        ∧ ∀ d ∈ dists, d.values = List.range ds := by
  obtain ⟨idx, kind, comp, mb0, pm0, d0⟩ := nd
  simp only at hk
  subst hk
  simp only [Node.compile] at h
  split at h
  · exact absurd h (by simp)
  next mult hm =>
    split at h
    · exact absurd h (by simp)
    next dists0 hd =>
      simp only [Except.ok.injEq, Node.mk.injEq] at h
      obtain ⟨_, _, hcomp, _, hpm, hd0⟩ := h
      by_cases hds : ds = 0
      · subst hds
        simp [compute_distributions_at, NodeKind.domainSize?, NodeKind.support?] at hd
        split at hd <;> simp at hd
      · have hdsz : NodeKind.domainSize? (.table ds cpt) = some ds := by
          simp [NodeKind.domainSize?, hds]
        have hsup : NodeKind.support? (.table ds cpt) = some (List.range ds) := by
          simp [NodeKind.support?, NodeKind.domainSize?, hds]
        rw [compute_parent_multipliers_at] at hm
        split at hm
        · exact absurd hm (by simp)
        next sizes hsizes =>
          simp only [Except.ok.injEq] at hm
          subst hm
          simp only [compute_distributions_at, hdsz, hsup] at hd
          split at hd
          · exact absurd hd (by simp)
          · split at hd
            · exact absurd hd (by simp)
            next supports hsupports =>
              split at hd
              · exact absurd hd (by simp)
              next dists1 jf hcd =>
                split at hd
                next hjlen =>
                  simp only [Except.ok.injEq] at hd
                  subst hd
                  have hsupeq : supports = sizes.map List.range := by
                    have := parentSupports_of_sizes net _ sizes hsizes
                    rw [hsupports] at this
                    simpa using this
                  obtain ⟨hlen1, hvals⟩ := cdLoop_facts _ _ _ _ _ _ 0 0 _ _ hcd
                  refine ⟨hcomp.symm, ?_, sizes, dists1, hsizes, hpm.symm, hd0.symm,
                    ?_, hds, hvals⟩
                  · show NodeKind.domainSize? (.table ds cpt) = some ds
                    exact hdsz
                  · rw [hlen1, hsupeq, lexProduct_ranges, List.length_map,
                      List.length_range]
                next hjlen => exact absurd hd (by simp)

/-- In-support world: every value stored at a key that names a node
with an integer domain size is a natural number below that size. -/
def InSupportSeed (net : BayesNet) (w : World) : Prop :=
  ∀ k v, wLookup w k = some v → ∀ nd, net.findNode k = some nd →
    ∀ ds, nd.domainSize? = some ds → ∃ m, v = Val.vnat m ∧ m < ds

/-- Everything that sampling a node needs, as established by `compile`
for every table node. -/
def SampleReady (net : BayesNet) (topo : List Nat) : Prop :=
  ∀ i ∈ topo, ∃ nd ds cpt sizes dists,
    net.findNode i = some nd
    ∧ nd.index = i
    ∧ nd.kind = NodeKind.table ds cpt
    ∧ nd.compiled = true
    ∧ nd.domainSize? = some ds
    ∧ nd.parent_multiplier = some (compute_parent_multipliers sizes)
    ∧ nd.distributions = some dists
    ∧ parentSizes net (net.parentsOf i) = .ok sizes
    ∧ dists.length = sizes.prod
    ∧ ds ≠ 0
    ∧ (∀ d ∈ dists, d.values = List.range ds)

/-- The order produced by the topological sort puts every parent before
its child. -/
def TopoOrdered (net : BayesNet) (topo : List Nat) : Prop :=
  ∀ v p xs ys, topo = xs ++ v :: ys → p ∈ net.parentsOf v → p ∈ xs

theorem node_sample_ok (net : BayesNet) (nd : Node) (w : World) (rng : Nat)
    (i ds : Nat) (cpt : List ℝ) (sizes : List Nat)
    (dists : List CategoricalDistribution)
    (hidx : nd.index = i)
    (hk : nd.kind = NodeKind.table ds cpt)
    (hcomp : nd.compiled = true)
    (hpm : nd.parent_multiplier = some (compute_parent_multipliers sizes))
    (hdsts : nd.distributions = some dists)
    (hsizes : parentSizes net (net.parentsOf i) = .ok sizes)
    (hdlen : dists.length = sizes.prod)
    (hds0 : ds ≠ 0)
    (hvals : ∀ d ∈ dists, d.values = List.range ds)
    (hpar : ∀ p ∈ net.parentsOf i, ∃ pnd pds m,
        net.findNode p = some pnd ∧ pnd.domainSize? = some pds
        ∧ wLookup w p = some (Val.vnat m) ∧ m < pds) :
    Node.sample net nd w rng = .ok (Val.vnat (rng % ds), rng + 1) := by
  have hlenp : sizes.length = (net.parentsOf i).length := (parentSizes_spec net _ _ hsizes).1
  have hspec := (parentSizes_spec net _ _ hsizes).2
  have hparj : ∀ j, j < (net.parentsOf i).length →
      ∃ m, wLookup w ((net.parentsOf i).getD j 0) = some (Val.vnat m)
        ∧ m < sizes.getD j 0 := by
    intro j hj
    have hpj : (net.parentsOf i).getD j 0 ∈ net.parentsOf i := by
      rw [List.getD_eq_getElem?_getD, List.getElem?_eq_getElem hj]
      exact List.getElem_mem hj
    obtain ⟨pnd, pds, m, hfnp, hpds, hlook, hmlt⟩ := hpar _ hpj
    have hbind := hspec j hj
    rw [hfnp] at hbind
    have hpds' : pnd.domainSize? = some (sizes.getD j 0) := hbind
    rw [hpds] at hpds'
    have : pds = sizes.getD j 0 := by simpa using hpds'
    exact ⟨m, hlook, this ▸ hmlt⟩
  have hmapv : ∀ j, j < (net.parentsOf i).length →
      ((net.parentsOf i).map (natValAt w)).getD j 0
        = natValAt w ((net.parentsOf i).getD j 0) := by
    intro j hj
    rw [List.getD_eq_getElem?_getD, List.getElem?_map, List.getElem?_eq_getElem hj]
    simp only [Option.map_some', Option.getD_some]
    congr 1
    rw [List.getD_eq_getElem?_getD, List.getElem?_eq_getElem hj]
    rfl
  have hvj : ∀ j, j < (net.parentsOf i).length →
      wLookup w ((net.parentsOf i).getD j 0)
        = some (Val.vnat (((net.parentsOf i).map (natValAt w)).getD j 0)) := by
    intro j hj
    obtain ⟨m, hlook, _⟩ := hparj j hj
    rw [hmapv j hj, natValAt, hlook]
  have hbj : ∀ j, j < ((net.parentsOf i).map (natValAt w)).length →
      ((net.parentsOf i).map (natValAt w)).getD j 0 < sizes.getD j 0 := by
    intro j hj
    rw [List.length_map] at hj
    obtain ⟨m, hlook, hmlt⟩ := hparj j hj
    rw [hmapv j hj, natValAt, hlook]
    exact hmlt
  have hdi : distribution_index (net.parentsOf i) (compute_parent_multipliers sizes) w
      = .ok (distribution_index_core ((net.parentsOf i).map (natValAt w))
          (compute_parent_multipliers sizes)) := by
    rw [distribution_index,
      diAux_eq_core (compute_parent_multipliers sizes) w (net.parentsOf i)
        ((net.parentsOf i).map (natValAt w)) 0 (by simp)
        (by rw [length_compute_parent_multipliers, hlenp]; omega) hvj,
      List.drop_zero]
    rfl
  have hidxlt : distribution_index_core ((net.parentsOf i).map (natValAt w))
      (compute_parent_multipliers sizes) < sizes.prod :=
    distribution_index_core_lt sizes _ (by rw [List.length_map, hlenp]) hbj
  have hidxlt' : distribution_index_core ((net.parentsOf i).map (natValAt w))
      (compute_parent_multipliers sizes) < dists.length := by rw [hdlen]; exact hidxlt
  have hget : dists[distribution_index_core ((net.parentsOf i).map (natValAt w))
      (compute_parent_multipliers sizes)]?
      = some (dists.get ⟨_, hidxlt'⟩) := List.getElem?_eq_getElem hidxlt'
  have hdv : (dists.get ⟨distribution_index_core ((net.parentsOf i).map (natValAt w))
      (compute_parent_multipliers sizes), hidxlt'⟩).values = List.range ds :=
    hvals _ (List.getElem_mem hidxlt')
  have hlt : rng % ds < ds := Nat.mod_lt rng (Nat.pos_of_ne_zero hds0)
  have hsmp : (dists.get ⟨distribution_index_core ((net.parentsOf i).map (natValAt w))
      (compute_parent_multipliers sizes), hidxlt'⟩).sample rng
      = .ok (Val.vnat (rng % ds), rng + 1) := by
    rw [CategoricalDistribution.sample, hdv, List.length_range,
      List.getElem?_eq_getElem (by simpa using hlt)]
    simp [List.getElem_range]
  rw [Node.sample, hk, hidx]
  simp only [hcomp, if_true, hpm, hdsts, hdi, hget, hsmp]

theorem sampleLoop_spec (net : BayesNet) (topo : List Nat)
    (hready : SampleReady net topo) (hord : TopoOrdered net topo) :
    ∀ (suffix done : List Nat) (w : World) (rng : Nat),
      topo = done ++ suffix →
      (∀ u ∈ done, wContains w u = true) →
      InSupportSeed net w →
      ∃ res rng', sampleLoop net suffix w rng = .ok (res, rng')
        ∧ (∀ k v, wLookup w k = some v → wLookup res k = some v)
        ∧ (∀ u ∈ suffix, wContains res u = true) := by
  intro suffix
  induction suffix with
  | nil =>
    intro done w rng _ _ _
    exact ⟨w, rng, rfl, fun k v h => h, by simp⟩
  | cons i suffix' ih =>
    intro done w rng hsplit hdone hinv
    have hsplit' : topo = (done ++ [i]) ++ suffix' := by
      rw [hsplit, List.append_assoc]
      rfl
    by_cases hc : wContains w i = true
    · have hdone' : ∀ u ∈ done ++ [i], wContains w u = true := by
        intro u hu
        rcases List.mem_append.mp hu with h | h
        · exact hdone u h
        · simp only [List.mem_singleton] at h
          subst h
          exact hc
      obtain ⟨res, rng', hloop, hext, hcontains⟩ := ih (done ++ [i]) w rng hsplit' hdone' hinv
      refine ⟨res, rng', ?_, hext, ?_⟩
      · simp only [sampleLoop, hc, if_true]
        exact hloop
      · intro u hu
        rcases List.mem_cons.mp hu with rfl | hu'
        · rw [wContains_eq_isSome] at hc ⊢
          obtain ⟨v, hv⟩ := Option.isSome_iff_exists.mp hc
          rw [hext u v hv]
          rfl
        · exact hcontains u hu'
    · have hcf : wContains w i = false := by
        cases hcc : wContains w i with
        | false => rfl
        | true => exact absurd hcc hc
      have hiT : i ∈ topo := by
        rw [hsplit]
        exact List.mem_append.mpr (Or.inr (List.mem_cons_self _ _))
      obtain ⟨nd, ds, cpt, sizes, dists, hfn, hidx, hk, hcomp, hdsz, hpm, hdsts,
        hsizes, hdlen, hds0, hvals⟩ := hready i hiT
      have hpar : ∀ p ∈ net.parentsOf i, ∃ pnd pds m,
          net.findNode p = some pnd ∧ pnd.domainSize? = some pds
          ∧ wLookup w p = some (Val.vnat m) ∧ m < pds := by
        intro p hp
        have hpd : p ∈ done := hord i p done suffix' hsplit hp
        have hcp := hdone p hpd
        rw [wContains_eq_isSome] at hcp
        obtain ⟨v, hv⟩ := Option.isSome_iff_exists.mp hcp
        obtain ⟨j, hj, hpj⟩ := List.getElem_of_mem hp
        have hspec := (parentSizes_spec net _ _ hsizes).2 j hj
        have hgd : (net.parentsOf i).getD j 0 = p := by
          rw [List.getD_eq_getElem?_getD, List.getElem?_eq_getElem hj]
          simpa using hpj
        rw [hgd] at hspec
        cases hfnp : net.findNode p with
        | none => rw [hfnp] at hspec; simp at hspec
        | some pnd =>
          rw [hfnp] at hspec
          have hpds : pnd.domainSize? = some (sizes.getD j 0) := hspec
          obtain ⟨m, hm, hmlt⟩ := hinv p v hv pnd hfnp _ hpds
          refine ⟨pnd, sizes.getD j 0, m, rfl, hpds, ?_, hmlt⟩
          rw [← hm]
          exact hv
      have hsample := node_sample_ok net nd w rng i ds cpt sizes dists hidx hk
        hcomp hpm hdsts hsizes hdlen hds0 hvals hpar
      have hwin : wInsert w i (Val.vnat (rng % ds)) = w ++ [(i, Val.vnat (rng % ds))] :=
        wInsert_of_not_contains _ hcf
      have hlooknone : wLookup w i = none := by
        rw [wContains_eq_isSome] at hcf
        cases hl : wLookup w i with
        | none => rfl
        | some v => rw [hl] at hcf; simp at hcf
      have hexts : ∀ k v, wLookup w k = some v →
          wLookup (w ++ [(i, Val.vnat (rng % ds))]) k = some v :=
        fun k v hkv => wLookup_append_of_some _ hkv
      have hlooki : wLookup (w ++ [(i, Val.vnat (rng % ds))]) i
          = some (Val.vnat (rng % ds)) :=
        wLookup_append_single_self _ hlooknone
      have hinv' : InSupportSeed net (w ++ [(i, Val.vnat (rng % ds))]) := by
        intro k v hkv nd2 hfn2 ds2 hds2
        by_cases hki : k = i
        · subst hki
          rw [hlooki] at hkv
          have hveq : v = Val.vnat (rng % ds) := by simpa using hkv.symm
          rw [hfn] at hfn2
          have hnd2 : nd2 = nd := by simpa using hfn2.symm
          subst hnd2
          rw [hdsz] at hds2
          have hds2' : ds2 = ds := by simpa using hds2.symm
          refine ⟨rng % ds, hveq, ?_⟩
          rw [hds2']
          exact Nat.mod_lt rng (Nat.pos_of_ne_zero hds0)
        · have hkw : wLookup w k = some v := by
            rw [wLookup, List.find?_append] at hkv
            cases hfk : w.find? (fun p => p.1 == k) with
            | some q =>
              rw [hfk] at hkv
              rw [wLookup, hfk]
              simpa using hkv
            | none =>
              rw [hfk] at hkv
              exfalso
              have hbik : (i == k) = false :=
                beq_eq_false_iff_ne.mpr (fun h => hki h.symm)
              simp [List.find?, hbik] at hkv
          exact hinv k v hkw nd2 hfn2 ds2 hds2
      have hdone' : ∀ u ∈ done ++ [i],
          wContains (w ++ [(i, Val.vnat (rng % ds))]) u = true := by
        intro u hu
        rcases List.mem_append.mp hu with h | h
        · have hcu := hdone u h
          rw [wContains_eq_isSome] at hcu ⊢
          obtain ⟨v, hv⟩ := Option.isSome_iff_exists.mp hcu
          rw [hexts u v hv]
          rfl
        · simp only [List.mem_singleton] at h
          subst h
          rw [wContains_eq_isSome, hlooki]
          rfl
      obtain ⟨res, rng', hloop, hext, hcontains⟩ :=
        ih (done ++ [i]) (w ++ [(i, Val.vnat (rng % ds))]) (rng + 1) hsplit' hdone' hinv'
      refine ⟨res, rng', ?_, ?_, ?_⟩
      · simp only [sampleLoop, hcf, Bool.false_eq_true, if_false, hfn, hsample, hwin]
        exact hloop
      · intro k v hkv
        exact hext k v (hexts k v hkv)
      · intro u hu
        rcases List.mem_cons.mp hu with rfl | hu'
        · rw [wContains_eq_isSome, hext u _ hlooki]
          rfl
        · exact hcontains u hu'

/-- Counterexample to C5 as stated: on the compiled two-node example
network, the seed world `{node0: 5}` (value outside node0's domain)
makes `sample` fail with an index error instead of returning a
complete assignment. -/
theorem claim5_counterexample :
    net2.compile = .ok net2c
    ∧ net2c.sample (some [(0, Val.vnat 5)]) false 0 = .error Err.indexError :=
  ⟨rfl, rfl⟩

/-- C5 (amended): for a freshly compiled network of table nodes and a
seed world whose values at node keys are in-support naturals, `sample`
without in-place mutation succeeds, leaves the caller's world
unchanged, and returns a complete assignment that agrees with the seed;
with no seed it starts from the empty assignment. -/
theorem claim5_sample_amended :
    ∀ (net₀ net : BayesNet), net₀.nodes_by_topology = none →
      net₀.compile = .ok net →
      (∀ nd ∈ net.nodes, nd.kind.isTable = true) →
      ∀ (w? : Option World) (rng : Nat), InSupportSeed net (w?.getD []) →
        ∃ res rng', net.sample w? false rng = .ok (res, w?.getD [], false, rng')
          ∧ (∀ nd ∈ net.nodes, wContains res nd.index = true)
          ∧ (∀ k v, wLookup (w?.getD []) k = some v → wLookup res k = some v) := by
  intro net₀ net htopo0 hcompile halltable w? rng hinv
  obtain ⟨topo, lastN, nodesF, htopo, hlast, hrange, hfold, hnet'⟩ := compile_inv hcompile
  have hsort : net₀.topological_sort = some topo := by
    have htopo2 : (match net₀.topological_sort with
        | some t => Except.ok t
        | none => (Except.error Err.cycleError : Except Err (List Nat))) = .ok topo := by
      rw [← htopo, BayesNet.topoOrErr, htopo0]
    cases hs : net₀.topological_sort with
    | none => rw [hs] at htopo2; simp at htopo2
    | some t =>
      rw [hs] at htopo2
      simp only [Except.ok.injEq] at htopo2
      rw [htopo2]
  have hperm : topo.Perm net₀.indices :=
    kahnAux_perm net₀.edges net₀.indices.length net₀.indices topo hsort
  have hbefore := kahnAux_edge_before net₀.edges net₀.indices.length net₀.indices
    topo hsort
  have hnodes : net.nodes = nodesF := by rw [hnet']
  have hedges : net.edges = net₀.edges := by rw [hnet']
  have htopoN : net.nodes_by_topology = some topo := by rw [hnet']
  have hnd : ((sortByIndex net₀.nodes).map (·.index)).Nodup := by
    rw [hrange]; exact List.nodup_range _
  obtain ⟨hstat, hfix⟩ := compileFold_post _ topo _ nodesF hnd hfold
  have hidxF : nodesF.map (·.index) = (sortByIndex net₀.nodes).map (·.index) :=
    map_index_of_map_static hstat
  have hidxPerm : net.indices.Perm net₀.indices := by
    rw [BayesNet.indices, hnodes, hidxF]
    exact (List.perm_insertionSort _ _).map _
  have hfixN : ∀ i ∈ topo, ∃ nd, net.findNode i = some nd
      ∧ Node.compile net nd = .ok nd := by
    intro i hi
    obtain ⟨nd, hfnd, hcomp⟩ := hfix i hi
    refine ⟨nd, ?_, ?_⟩
    · rw [BayesNet.findNode, hnodes]
      exact hfnd
    · have hcongr := @node_compile_congr { net₀ with nodes := sortByIndex net₀.nodes }
        net hedges.symm (by rw [hnodes]; exact hstat.symm) nd
      exact hcongr.symm.trans hcomp
  have hready : SampleReady net topo := by
    intro i hi
    obtain ⟨nd, hfnd, hcomp⟩ := hfixN i hi
    have hfnd' := hfnd
    rw [BayesNet.findNode] at hfnd'
    have hndmem : nd ∈ net.nodes := List.mem_of_find?_eq_some hfnd'
    have hpb := @List.find?_some Node (fun m => m.index == i) nd net.nodes hfnd'
    have hidx : nd.index = i := beq_iff_eq.mp hpb
    have htab := halltable nd hndmem
    cases hk : nd.kind with
    | table ds cpt =>
      obtain ⟨hcompiled, hdsz, sizes, dists, hsizes, hpm, hdsts, hdlen, hds0, hvals⟩ :=
        node_compile_table_facts hk hcomp
      rw [hidx] at hsizes
      exact ⟨nd, ds, cpt, sizes, dists, hfnd, hidx, hk, hcompiled, hdsz, hpm,
        hdsts, hsizes, hdlen, hds0, hvals⟩
    | dist d sf lf => rw [hk] at htab; simp [NodeKind.isTable] at htab
    | distReal sf lf => rw [hk] at htab; simp [NodeKind.isTable] at htab
    | detReal f => rw [hk] at htab; simp [NodeKind.isTable] at htab
  have hord : TopoOrdered net topo := by
    intro v p xs ys hs hp
    have hp' : p ∈ net.predecessors v := (List.mem_insertionSort _).mp hp
    rw [BayesNet.predecessors] at hp'
    obtain ⟨hpidx, hcont⟩ := List.mem_filter.mp hp'
    have hedge : (p, v) ∈ net.edges := List.elem_iff.mp hcont
    have hpidx0 : p ∈ net₀.indices := hidxPerm.mem_iff.mp hpidx
    exact hbefore p v (by rw [← hedges]; exact hedge) hpidx0 xs ys hs
  obtain ⟨res, rng', hloop, hext, hcontains⟩ :=
    sampleLoop_spec net topo hready hord topo [] (w?.getD []) rng (by simp)
      (by simp) hinv
  refine ⟨res, rng', ?_, ?_, hext⟩
  · by_cases hemp : (w?.getD []).isEmpty
    · have hseednil : w?.getD [] = [] := List.isEmpty_iff.mp hemp
      rw [hseednil] at hloop
      simp only [BayesNet.sample, htopoN, hemp, if_true, hloop, hseednil]
      simp
    · simp only [BayesNet.sample, htopoN, hemp, Bool.false_eq_true, if_false,
        Bool.true_eq_false, hloop]
  · intro nd hnd
    apply hcontains
    have h1 : nd.index ∈ net.indices := by
      rw [BayesNet.indices]
      exact List.mem_map_of_mem _ hnd
    exact hperm.mem_iff.mpr (hidxPerm.mem_iff.mp h1)

/-- Witness for the amended C5: sampling the compiled two-node example
network from the in-support seed `{node0: 1}` without mutation. -/
theorem claim5_sample_amended_witness :
    net2.nodes_by_topology = none
    ∧ net2.compile = .ok net2c
    ∧ (∀ nd ∈ net2c.nodes, nd.kind.isTable = true)
    ∧ InSupportSeed net2c ((some [(0, Val.vnat 1)] : Option World).getD [])
    ∧ ∃ res rng', net2c.sample (some [(0, Val.vnat 1)]) false 0
        = .ok (res, (some [(0, Val.vnat 1)] : Option World).getD [], false, rng')
      ∧ (∀ nd ∈ net2c.nodes, wContains res nd.index = true)
      ∧ (∀ k v, wLookup ((some [(0, Val.vnat 1)] : Option World).getD []) k = some v →
          wLookup res k = some v) := by
  have htab : ∀ nd ∈ net2c.nodes, nd.kind.isTable = true := by
    intro nd hnd
    rw [show net2c.nodes = [n2c0, n2c1] from rfl] at hnd
    rcases List.mem_cons.mp hnd with rfl | h
    · rfl
    · rcases List.mem_cons.mp h with rfl | h'
      · rfl
      · exact absurd h' (List.not_mem_nil nd)
  have hinv : InSupportSeed net2c ((some [(0, Val.vnat 1)] : Option World).getD []) := by
    intro k v hkv nd hnd ds hds
    by_cases hk0 : k = 0
    · subst hk0
      have hv : v = Val.vnat 1 := by
        rw [show wLookup ((some [(0, Val.vnat 1)] : Option World).getD []) 0
          = some (Val.vnat 1) from rfl] at hkv
        simpa using hkv.symm
      have hnd0 : nd = n2c0 := by
        rw [show net2c.findNode 0 = some n2c0 from rfl] at hnd
        simpa using hnd.symm
      subst hnd0
      rw [show n2c0.domainSize? = some 2 from rfl] at hds
      have hds2 : ds = 2 := by simpa using hds.symm
      subst hds2
      exact ⟨1, hv, by omega⟩
    · exfalso
      rw [wLookup] at hkv
      have hb : ((0 : Nat) == k) = false := beq_eq_false_iff_ne.mpr (fun h => hk0 h.symm)
      simp [List.find?, hb] at hkv
  exact ⟨rfl, rfl, htab, hinv,
    claim5_sample_amended net2 net2c rfl rfl htab (some [(0, Val.vnat 1)]) 0 hinv⟩
